import Mathlib

/-!
Shallow embedding of the training / query-ranking core of `toy_model_w2v.ts`
(class `Word2vec`), together with theorems checking the natural-language
specification against it.

Modelling conventions:
* JavaScript numbers are modelled as exact rationals `ℚ` (integers as `ℕ`/`ℤ`
  where the source only ever holds integers).  The transcendental library
  functions `Math.pow(·, 0.75)`, `Math.exp` and `Math.sqrt` are abstracted as
  function parameters (`jpow`, `jexp`, `s`); theorems that need facts about
  them (e.g. `jpow 1 = 1`, `jpow c ≥ 0`, `s 0 = 0`) take those facts as
  hypotheses.
* A separate small model `JF` of IEEE special values (`NaN`, `±Infinity`) is
  used where the distinction between exact arithmetic and JavaScript float
  semantics is itself the property under test (division by a zero norm).
* JS objects used as string-keyed maps are association lists in insertion
  order with unique keys, which matches JS enumeration order for the
  non-integer-like keys that occur here.
* JS `Array.prototype.sort` (ES2019+) is stable; it is modelled by
  `List.mergeSort` with the comparator's induced boolean relation.
-/

set_option maxRecDepth 10000

namespace Lamvi

/-- Source: `const cum_table_domain = 2147483647;  // 2^31 - 1`. -/
def cum_table_domain : ℤ := 2147483647

/-- JavaScript `Math.round`: round half toward positive infinity,
`Math.round(x) = ⌊x + 1/2⌋`. -/
def jround (q : ℚ) : ℤ := Int.floor (q + 1 / 2)

/-- Source `class VocabItem { constructor(public idx, public count = 0) }`. -/
structure VocabItem where
  idx : Nat
  count : Nat
deriving DecidableEq

/-- A JS object used as a string-keyed map (`this.vocab`): association list in
insertion order, keys unique. -/
abbrev StrMap := List (String × VocabItem)

/-- Property read `m[k]` (as an `Option`, `none` when the key is absent). -/
def mapFind : StrMap → String → Option VocabItem
  | [], _ => none
  | kv :: m, k => if kv.1 = k then some kv.2 else mapFind m k

/-- Property write `m[k] = v`: overwrite in place if present, else append. -/
def mapSet : StrMap → String → VocabItem → StrMap
  | [], k, v => [(k, v)]
  | kv :: m, k, v => if kv.1 = k then (k, v) :: m else kv :: mapSet m k v

/-- Field mutation `m[k].f = ...` for a present key (absent keys untouched;
the source would throw there, and every use below is on a present key). -/
def mapUpdate (m : StrMap) (k : String) (f : VocabItem → VocabItem) : StrMap :=
  m.map (fun kv => if kv.1 = k then (kv.1, f kv.2) else kv)

/-- `m[k].count`, with 0 for an absent key (the source never looks up an
absent key here). -/
def vocabCount (m : StrMap) (w : String) : Nat :=
  match mapFind m w with
  | some it => it.count
  | none => 0

/-! ## build_vocab (source lines 167-233) -/

/-- JS `String.prototype.split` with a single-character separator, on the
character list of the string: `''` splits to `[[]]`, and each separator
occurrence starts a new (possibly empty) field. -/
def splitChar (sep : Char) : List Char → List (List Char)
  | [] => [[]]
  | c :: cs =>
    match splitChar sep cs with
    | [] => [[]]
    | w :: ws => if c = sep then [] :: w :: ws else (c :: w) :: ws

/-- `this.sentences = this.corpus.split('\n')` and, per sentence,
`sentence.split(' ')` (lines 169, 173); both separators are single
characters, so the JS two-argument `split` is `splitChar`, including
`''.split(' ') = ['']`. -/
def splitSentences (corpus : String) : List (List String) :=
  (splitChar '\n' corpus.data).map (fun line => (splitChar ' ' line).map String.mk)

/-- Body of the word-counting loop (lines 174-180): insert an entry with
`idx = index2word.length, count = 0` on first sight, push the word on
`index2word`, then `count += 1`. -/
def countStep (st : StrMap × List String) (word : String) : StrMap × List String :=
  let st :=
    if (mapFind st.1 word).isSome then st
    else (st.1 ++ [(word, ⟨st.2.length, 0⟩)], st.2 ++ [word])
  (mapUpdate st.1 word (fun it => ⟨it.idx, it.count + 1⟩), st.2)

/-- The full counting phase over all sentences (lines 170-181), producing
`(vocab, index2word)`. -/
def countWords (sentences : List (List String)) : StrMap × List String :=
  sentences.foldl (fun st ws => ws.foldl countStep st) ([], [])

/-- Body of the discard-rare loop (lines 188-193): keep an entry iff
`count ≥ min_count`, reassigning `idx` to the position in the rebuilt
`index2word`. -/
def drStep (minCount : Nat) (acc : StrMap × List String) (kv : String × VocabItem) :
    StrMap × List String :=
  if kv.2.count ≥ minCount then
    (acc.1 ++ [(kv.1, ⟨acc.2.length, kv.2.count⟩)], acc.2 ++ [kv.1])
  else acc

/-- Discard-rare phase (lines 183-197); a no-op when `min_count ≤ 1`. -/
def discardRare (minCount : Nat) (st : StrMap × List String) : StrMap × List String :=
  if minCount > 1 then st.1.foldl (drStep minCount) ([], []) else st

/-- `this.index2word.sort((a, b) => this.vocab[b].count - this.vocab[a].count)`
(lines 200-202): stable sort by descending count (ES2019 `Array.sort` is
stable, and the stable sort for a total preorder is unique, realized here by
insertion sort). -/
def sortByCount (m : StrMap) (i2w : List String) : List String :=
  i2w.insertionSort (fun a b => vocabCount m b ≤ vocabCount m a)

/-- The null word `'\0'` spliced in at index 0 (line 203). -/
def nullWord : String := "\x00"

/-- The reindexing loop of lines 205-207: for each position `i` in `ps`,
`vocab[index2word[i]].idx = i`. -/
def idxLoop (i2w : List String) (ps : List Nat) (m : StrMap) : StrMap :=
  ps.foldl (fun m i => mapUpdate m (i2w.getD i "") (fun it => ⟨i, it.count⟩)) m

/-- Lines 203-207: splice the null word to the front of `index2word`, set
`vocab[index2word[0]] = new VocabItem(0, 1)`, then for `i = 1 .. len-1`
set `vocab[index2word[i]].idx = i`. -/
def addNullAndIndex (st : StrMap × List String) : StrMap × List String :=
  let i2w := nullWord :: st.2
  (idxLoop i2w ((List.range i2w.length).drop 1) (mapSet st.1 (i2w.getD 0 "") ⟨0, 1⟩), i2w)

/-- The in-place sort of `index2word` (lines 200-202) as a state transformer. -/
def sortStep (st : StrMap × List String) : StrMap × List String :=
  (st.1, sortByCount st.1 st.2)

/-- `build_vocab` (lines 167-207): the final `(vocab, index2word)` state. -/
def build_vocab (corpus : String) (minCount : Nat) : StrMap × List String :=
  addNullAndIndex (sortStep (discardRare minCount (countWords (splitSentences corpus))))

/-- `total_words` (lines 210-213): sum of counts over all vocab entries,
computed after the sentinel is added. -/
def totalWords (m : StrMap) : Nat := (m.map (·.2.count)).sum

/-- The cumulative negative-sampling table (lines 215-227), with
`Math.pow(count, 0.75)` abstracted as `jpow count`.  Entry `i` is
`Math.round(cumulative_i * cum_table_domain)` where `cumulative_i` is the
partial sum of `jpow(count)/train_words_pow` over indices `0..i`. -/
def buildCumTable (jpow : Nat → ℚ) (m : StrMap) (i2w : List String) : List ℤ :=
  let train_words_pow : ℚ := (i2w.map (fun w => jpow (vocabCount m w))).sum
  (List.range i2w.length).map (fun i =>
    jround ((((i2w.take (i + 1)).map
      (fun w => jpow (vocabCount m w) / train_words_pow)).sum) * (cum_table_domain : ℚ)))

/-! ## Negative sampling and the training steps (source lines 519-663) -/

/-- The `while` loop of `bSearch` (lines 655-661), python `bisect_left`
style: maintain `bot < top`, probe `mid = ⌊(bot+top)/2⌋`, return `mid` on an
exact hit, else narrow to the half containing the insertion point; on exit
return `bot`. -/
def bSearchLoop (xs : List ℚ) (x : ℚ) (bot top : Nat) : Nat :=
  if bot < top then
    let mid := (bot + top) / 2
    let c := xs.getD mid 0 - x
    if c = 0 then mid
    else if c < 0 then bSearchLoop xs x (mid + 1) top
    else bSearchLoop xs x bot mid
  else bot
termination_by top - bot
decreasing_by
  · have h1 : bot ≤ (bot + top) / 2 := Nat.le_div_iff_mul_le (by omega) |>.2 (by omega)
    omega
  · have h2 : (bot + top) / 2 < top := Nat.div_lt_of_lt_mul (by omega)
    omega

/-- `bSearch` (lines 649-663): `0` on the empty list, `xs.length` when `x`
exceeds the last element, `0` when `x` is below the first, else the binary
search. -/
def bSearch (xs : List ℚ) (x : ℚ) : Nat :=
  if xs.length = 0 then 0
  else if x > xs.getD (xs.length - 1) 0 then xs.length
  else if x < xs.getD 0 0 then 0
  else bSearchLoop xs x 0 xs.length

/-- One negative draw (lines 584-586 and 614-616): inverse-CDF lookup of a
uniform scaled into the table domain, with the sentinel fallback
`Math.floor(get_random_float() * cum_table_domain) % (vocab_size - 1) + 1`
when the lookup returns index 0.  `u1`, `u2` are the two
`get_random_float()` results (`u2` is consumed only on the fallback path);
JS `%` is the truncated remainder `Int.tmod`, which agrees with it on every
argument sign. -/
def negDraw (cumTable : List ℚ) (vocabSize : Nat) (u1 u2 : ℚ) : ℤ :=
  let target : ℤ := (bSearch cumTable (u1 * (cum_table_domain : ℚ)) : ℤ)
  if target = 0 then
    (Int.floor (u2 * (cum_table_domain : ℚ))).tmod ((vocabSize : ℤ) - 1) + 1
  else target

/-- The accepted negative targets over the `d = 1 .. negative` loop
iterations (the shared draw/skip logic of train_sg_pair lines 583-588 and
train_cbow_pair lines 613-618): each iteration draws fresh randoms, and a
draw equal to the true target `w_idx` is skipped by `continue` without
resampling, so the accepted list can be shorter than the iteration count. -/
def negTargets (cumTable : List ℚ) (vocabSize : Nat) (wIdx : Nat)
    (us : List (ℚ × ℚ)) : List ℤ :=
  (us.map (fun u => negDraw cumTable vocabSize u.1 u.2)).filter
    (fun t => t ≠ (wIdx : ℤ))

/-- `for (j = 0; j < hidden; j++) f += a[j] * b[j]` — the dot-product loop. -/
def dotJ (hidden : Nat) (a b : List ℚ) : ℚ :=
  ((List.range hidden).map (fun j => a.getD j 0 * b.getD j 0)).sum

/-- `for (j = 0; j < hidden; j++) acc[j] += g * v[j]` as a functional
result. -/
def addScaled (hidden : Nat) (acc : List ℚ) (g : ℚ) (v : List ℚ) : List ℚ :=
  (List.range hidden).map (fun j => acc.getD j 0 + g * v.getD j 0)

/-- One iteration of the `d = 0 .. negative` loop (sg lines 577-596, cbow
lines 607-626, line-for-line identical), acting on the state
`(neu1e, syn1)`.  `du = none` is the true pair `d = 0` (label 1);
`some (u1, u2)` is a negative iteration with its randoms (label 0).  A
negative draw hitting the true target is a `continue`: no update and the
iteration is consumed.  The update of `syn1[target]` is immediate, visible
to later iterations. -/
def negStep (jexp : ℚ → ℚ) (lr : ℚ) (cumTable : List ℚ) (vocabSize hidden : Nat)
    (wIdx : Nat) (l1 : List ℚ) (st : List ℚ × List (List ℚ))
    (du : Option (ℚ × ℚ)) : List ℚ × List (List ℚ) :=
  let tl : Option (ℤ × ℚ) :=
    match du with
    | none => some ((wIdx : ℤ), 1)
    | some u =>
      let target := negDraw cumTable vocabSize u.1 u.2
      if target = (wIdx : ℤ) then none else some (target, 0)
  match tl with
  | none => st
  | some (target, label) =>
    let l2 := st.2.getD target.toNat []
    let f := dotJ hidden l1 l2
    let g := (label - 1 / (1 + jexp (-f))) * lr
    (addScaled hidden st.1 g l2, st.2.set target.toNat (addScaled hidden l2 g l1))

/-- `train_sg_pair` (lines 569-598): `l1` is the live row
`syn0[context_idx]`, `neu1e` starts as `hidden` zeros, the d-loop runs the
true pair followed by one iteration per element of `us` (`negative` many),
and finally `l1 += neu1e` is written back into `syn0[context_idx]`. -/
def train_sg_pair (jexp : ℚ → ℚ) (lr : ℚ) (cumTable : List ℚ)
    (vocabSize hidden : Nat) (syn0 syn1 : List (List ℚ)) (wIdx contextIdx : Nat)
    (us : List (ℚ × ℚ)) : List (List ℚ) × List (List ℚ) :=
  let l1 := syn0.getD contextIdx []
  let res := ((none : Option (ℚ × ℚ)) :: us.map some).foldl
      (negStep jexp lr cumTable vocabSize hidden wIdx l1)
      (List.replicate hidden 0, syn1)
  (syn0.set contextIdx (addScaled hidden l1 1 res.1), res.2)

/-- `train_cbow_pair` (lines 600-628): same d-loop on the supplied hidden
vector `l1`, then `syn0[a] += neu1e` for every `a` in `context_idxs`
(line 627). -/
def train_cbow_pair (jexp : ℚ → ℚ) (lr : ℚ) (cumTable : List ℚ)
    (vocabSize hidden : Nat) (syn0 syn1 : List (List ℚ)) (wIdx : Nat)
    (contextIdxs : List Nat) (l1 : List ℚ) (us : List (ℚ × ℚ)) :
    List (List ℚ) × List (List ℚ) :=
  let res := ((none : Option (ℚ × ℚ)) :: us.map some).foldl
      (negStep jexp lr cumTable vocabSize hidden wIdx l1)
      (List.replicate hidden 0, syn1)
  (contextIdxs.foldl (fun s a => s.set a (addScaled hidden (s.getD a []) 1 res.1)) syn0,
    res.2)

/-- The CBOW context of `train_sentence` (lines 544-550): `word2_indices`
collects the sentence POSITIONS `pos2 = i + start` of the reduced window
(`words.slice(start, pos + window + 1 - reduced_window)`) other than `pos`
— not the vocabulary indices of the words there.  `start` is
`Math.max(0, pos - window + reduced_window)`; the slice end is clamped to
the sentence length (`reduced_window ≤ window` in every reachable call, so
the end is non-negative). -/
def cbow_word2_indices (window reduced_window pos sentenceLen : Nat) : List Nat :=
  let start : Nat := ((pos : ℤ) - (window : ℤ) + (reduced_window : ℤ)).toNat
  let stop : Nat := min sentenceLen (pos + window + 1 - reduced_window)
  ((List.range (stop - start)).map (fun i => i + start)).filter (fun pos2 => pos2 ≠ pos)

/-- The CBOW hidden vector `l1` (lines 551-554): start from `hidden` zeros,
add `syn0[i]` for each `i` in `word2_indices` (sentence positions!), then
divide by the context size only when `cbow_mean` is set and the context is
non-empty. -/
def cbow_l1 (cbow_mean : Bool) (hidden : Nat) (syn0 : List (List ℚ))
    (word2_indices : List Nat) : List ℚ :=
  let l1 := word2_indices.foldl
      (fun acc i => (List.range hidden).map
        (fun j => acc.getD j 0 + (syn0.getD i []).getD j 0))
      (List.replicate hidden 0)
  if cbow_mean ∧ word2_indices.length > 0 then
    (List.range hidden).map (fun j => l1.getD j 0 / (word2_indices.length : ℚ))
  else l1

/-! ## compute_query_result (source lines 367-493) -/

/-- A `rank_history` element `{rank, iteration}`. -/
structure RankEntry where
  rank : Nat
  iteration : Nat
deriving DecidableEq

/-- `QueryOutRecord` as maintained by `compute_query_result`: the `rank`
and `rank_history` fields are assigned before first use (modelled with
initial values `0` and `[]`). -/
structure QueryOutRecord where
  query : String
  status : String
  rank : Nat
  rank_history : List RankEntry
deriving DecidableEq

/-- Generic JS-object write for the remaining string-keyed maps. -/
def alSet {β : Type} : List (String × β) → String → β → List (String × β)
  | [], k, v => [(k, v)]
  | kv :: m, k, v => if kv.1 = k then (k, v) :: m else kv :: alSet m k v

/-- Generic JS-object read. -/
def alFind {β : Type} : List (String × β) → String → Option β
  | [], _ => none
  | kv :: m, k => if kv.1 = k then some kv.2 else alFind m k

/-- `util.startsWith(q, '-')`: the sign marker is a single character, so
this is a head-character test. -/
def startsWithDash (q : String) : Bool :=
  match q.data with
  | [] => false
  | c :: _ => c = '-'

/-- `q.slice(1)` dropping the sign marker. -/
def dropSign (q : String) : String := String.mk (q.data.drop 1)

/-- `q_idx_set` (lines 387-396): the vocabulary indices of the query-in
terms after stripping a leading `'-'`. -/
def q_idx_set (vocabIdx : String → Nat) (query_in : List String) : List Nat :=
  query_in.map (fun q => vocabIdx (if startsWithDash q then dropSign q else q))

/-- The raw composed query vector (lines 386-401): the signed sum of
`syn0[vocab[word].idx]` over the query-in terms, starting from `hidden`
zeros. -/
def compose_qi (hidden : Nat) (vocabIdx : String → Nat) (syn0 : List (List ℚ))
    (query_in : List String) : List ℚ :=
  query_in.foldl
    (fun qi q =>
      let minus := startsWithDash q
      let word := if minus then dropSign q else q
      let qidx := vocabIdx word
      (List.range hidden).map (fun j =>
        if minus then qi.getD j 0 - (syn0.getD qidx []).getD j 0
        else qi.getD j 0 + (syn0.getD qidx []).getD j 0))
    (List.replicate hidden 0)

/-- The L2 normalization of `qi_vec` (lines 402-408) over exact rationals,
with `Math.sqrt` abstracted as `s`.  NOTE: the source divides every
component unconditionally; when the norm is zero JS produces `0/0 = NaN` —
that float behaviour is modelled separately by `normalizeJS`, while `ℚ`
division by zero yields 0 here. -/
def normalize_qi (s : ℚ → ℚ) (hidden : Nat) (qi : List ℚ) : List ℚ :=
  let l2_sqrt := s (dotJ hidden qi qi)
  (List.range hidden).map (fun j => qi.getD j 0 / l2_sqrt)

/-- The score loop (lines 410-425): query-term indices are forced to 0;
otherwise cosine `prod / sqrt(l2)` against the candidate row, with the
`l2 == 0` guard giving score 0 for zero-norm candidates. -/
def compute_scores (s : ℚ → ℚ) (hidden vocabSize : Nat) (syn0 : List (List ℚ))
    (qIdxSet : List Nat) (qi_vec : List ℚ) : List ℚ :=
  (List.range vocabSize).map (fun i =>
    if i ∈ qIdxSet then 0
    else
      let prod := dotJ hidden qi_vec (syn0.getD i [])
      let l2 := dotJ hidden (syn0.getD i []) (syn0.getD i [])
      let l2_sqrt := s l2
      if l2 = 0 then 0 else prod / l2_sqrt)

/-- A scored item with its assigned rank (lines 428-435). -/
structure ScoredItem where
  idx : Nat
  score : ℚ
  rank : Nat
deriving DecidableEq

/-- `item_scores` (lines 433-435): pair each index with its score, sort by
descending score with the stable `Array.sort((a,b) => b.score - a.score)`,
then assign `rank = position in the sorted order`. -/
def item_scores (scores : List ℚ) : List ScoredItem :=
  let sorted := ((List.range scores.length).map (fun i => (i, scores.getD i 0))).insertionSort
    (fun a b => b.2 ≤ a.2)
  sorted.enum.map (fun rp => ⟨rp.2.1, rp.2.2, rp.1⟩)

/-- `uniq_fast` (lines 632-645): first-occurrence deduplication. -/
def uniq_fast (a : List Nat) : List Nat :=
  a.foldl (fun acc x => if x ∈ acc then acc else acc ++ [x]) []

/-- Lexicographic (code-unit) comparison of character lists: the order used
by JS `Array.prototype.sort()` with no comparator, which compares the
elements' string representations. -/
def charListLe : List Char → List Char → Bool
  | [], _ => true
  | _ :: _, [] => false
  | a :: as, b :: bs => if a = b then charListLe as bs else decide (a < b)

/-- `ranks_to_show.sort()` (line 468) sorts the rank NUMBERS
lexicographically by their decimal representations (the JS default). -/
def jsDefaultLe (a b : Nat) : Prop := charListLe (Nat.repr a).data (Nat.repr b).data = true

instance : DecidableRel jsDefaultLe := fun a b => by
  unfold jsDefaultLe
  infer_instance

/-- `rank_lookup` (lines 436-442): the rank of every watched word. -/
def rank_lookup (index2word : List String) (queries_watched : List String)
    (items : List ScoredItem) : List (String × Nat) :=
  items.foldl
    (fun acc it =>
      let word := index2word.getD it.idx ""
      if word ∈ queries_watched then alSet acc word it.rank else acc)
    []

/-- `ranks_to_show` (lines 451-468): the ranks 0..9, plus the rank of every
watched word that is ranked and is not itself a query term; deduplicated,
with ranks of ignored words and of query-term indices filtered out, then
`.sort()`ed (lexicographically — the JS default). -/
def ranksToShow (index2word : List String) (vocabIdx : String → Nat)
    (queries_watched queries_ignored : List String) (qIdxSet : List Nat)
    (items : List ScoredItem) : List Nat :=
  let rl := rank_lookup index2word queries_watched items
  let base := List.range 10 ++ queries_watched.filterMap (fun word =>
    match alFind rl word with
    | none => none
    | some rank => if vocabIdx word ∈ qIdxSet then none else some rank)
  ((((uniq_fast base).filter
      (fun rank => ¬ (index2word.getD (items.getD rank ⟨0, 0, 0⟩).idx "" ∈ queries_ignored))).filter
    (fun rank => ¬ ((items.getD rank ⟨0, 0, 0⟩).idx ∈ qIdxSet))).insertionSort jsDefaultLe)

/-- The `rank_history` update of lines 478-485: when the last entry carries
the same iteration number, overwrite its rank in place (the
`slice(-1)[0]` alias mutates the shared element); otherwise push a new
`{rank, iteration}` entry. -/
def updateHistory (hist : List RankEntry) (rank iteration : Nat) : List RankEntry :=
  match hist.getLast? with
  | some last =>
    if last.iteration = iteration then hist.dropLast ++ [⟨rank, last.iteration⟩]
    else hist ++ [⟨rank, iteration⟩]
  | none => hist ++ [⟨rank, iteration⟩]

/-- The record-update loop (lines 469-487) followed by the final
`query_out_records.sort((a,b) => a.rank - b.rank)` (line 488): returns the
updated `qo_lookup` and the emitted record list. -/
def update_records (index2word : List String) (items : List ScoredItem)
    (iterations : Nat) (qo_lookup : List (String × QueryOutRecord))
    (ranks : List Nat) : List (String × QueryOutRecord) × List QueryOutRecord :=
  let res := ranks.foldl
    (fun (st : List (String × QueryOutRecord) × List QueryOutRecord) rank =>
      let item := items.getD rank ⟨0, 0, 0⟩
      let word := index2word.getD item.idx ""
      let record :=
        match alFind st.1 word with
        | some r => r
        | none => ⟨word, "NORMAL", 0, []⟩
      let record : QueryOutRecord := ⟨record.query, record.status, rank,
        updateHistory record.rank_history rank iterations⟩
      (alSet st.1 word record, st.2 ++ [record]))
    (qo_lookup, [])
  (res.1, res.2.insertionSort (fun a b => a.rank ≤ b.rank))

/-- `compute_query_result` (lines 367-493) for a non-empty `query_in`
(the empty query returns an empty record list at line 368 before any of
this runs): compose and normalize the query vector, score the vocabulary,
rank it, and update the per-query records.  Returns the emitted
`query_out_records` and the normalized `qi_vec`. -/
def compute_query_result (s : ℚ → ℚ) (hidden vocabSize : Nat)
    (vocabIdx : String → Nat) (index2word : List String) (syn0 : List (List ℚ))
    (query_in queries_watched queries_ignored : List String) (iterations : Nat)
    (qo_lookup : List (String × QueryOutRecord)) :
    List QueryOutRecord × List ℚ :=
  let qset := q_idx_set vocabIdx query_in
  let qi_vec := normalize_qi s hidden (compose_qi hidden vocabIdx syn0 query_in)
  let scores := compute_scores s hidden vocabSize syn0 qset qi_vec
  let items := item_scores scores
  let ranks := ranksToShow index2word vocabIdx queries_watched queries_ignored qset items
  ((update_records index2word items iterations qo_lookup ranks).2, qi_vec)

/-! ## IEEE-float behaviour of the query normalization (for C2) -/

/-- JS numbers restricted to finite rational values plus the IEEE special
values (`NaN`, `±Infinity`), enough to model the division-by-zero-norm path
of `compute_query_result` faithfully: `0/0 = NaN`, `x/0 = ±Infinity`, and
`NaN` propagates through arithmetic.  (`-0` does not arise on this path.) -/
inductive JF
  | fin (q : ℚ)
  | nan
  | inf
  | ninf
deriving DecidableEq

/-- IEEE addition on `JF`. -/
def JF.add : JF → JF → JF
  | fin a, fin b => fin (a + b)
  | nan, _ => nan
  | _, nan => nan
  | inf, ninf => nan
  | ninf, inf => nan
  | inf, _ => inf
  | _, inf => inf
  | ninf, _ => ninf
  | _, ninf => ninf

/-- IEEE multiplication on `JF`. -/
def JF.mul : JF → JF → JF
  | fin a, fin b => fin (a * b)
  | nan, _ => nan
  | _, nan => nan
  | inf, fin b => if b = 0 then nan else if 0 < b then inf else ninf
  | fin a, inf => if a = 0 then nan else if 0 < a then inf else ninf
  | ninf, fin b => if b = 0 then nan else if 0 < b then ninf else inf
  | fin a, ninf => if a = 0 then nan else if 0 < a then ninf else inf
  | inf, inf => inf
  | inf, ninf => ninf
  | ninf, inf => ninf
  | ninf, ninf => inf

/-- IEEE division on `JF`: in particular `0/0 = NaN` and `x/0 = ±∞`. -/
def JF.div : JF → JF → JF
  | fin a, fin b =>
    if b = 0 then (if a = 0 then nan else if 0 < a then inf else ninf)
    else fin (a / b)
  | nan, _ => nan
  | _, nan => nan
  | fin _, inf => fin 0
  | fin _, ninf => fin 0
  | inf, fin b => if 0 ≤ b then inf else ninf
  | ninf, fin b => if 0 ≤ b then ninf else inf
  | inf, inf => nan
  | inf, ninf => nan
  | ninf, _ => nan

/-- `Math.sqrt` on `JF` (negative finite arguments give `NaN`), with the
finite non-negative case abstracted by `s`. -/
def JF.sqrt (s : ℚ → ℚ) : JF → JF
  | fin q => if q < 0 then nan else fin (s q)
  | nan => nan
  | inf => inf
  | ninf => nan

/-- The normalization of lines 402-408 under JS float semantics: compute
`l2 = Σ qi[j]·qi[j]` with a running `+=`, `l2_sqrt = Math.sqrt(l2)`, then
divide every component by `l2_sqrt` unconditionally. -/
def normalizeJS (s : ℚ → ℚ) (hidden : Nat) (qi : List JF) : List JF :=
  let l2 := ((List.range hidden).map
    (fun j => (qi.getD j (JF.fin 0)).mul (qi.getD j (JF.fin 0)))).foldl JF.add (JF.fin 0)
  let l2_sqrt := JF.sqrt s l2
  (List.range hidden).map (fun j => (qi.getD j (JF.fin 0)).div l2_sqrt)

/-- The score loop of lines 410-425 under JS float semantics.  Candidate
rows of `syn0` are ordinary finite numbers, so their self-dot-product `l2`
and the `l2 == 0` guard are exact. -/
def compute_scoresJS (s : ℚ → ℚ) (hidden vocabSize : Nat) (syn0 : List (List ℚ))
    (qIdxSet : List Nat) (qi_vec : List JF) : List JF :=
  (List.range vocabSize).map (fun i =>
    if i ∈ qIdxSet then JF.fin 0
    else
      let prod := ((List.range hidden).map
        (fun j => (qi_vec.getD j (JF.fin 0)).mul
          (JF.fin ((syn0.getD i []).getD j 0)))).foldl JF.add (JF.fin 0)
      let l2 := dotJ hidden (syn0.getD i []) (syn0.getD i [])
      let l2_sqrt := s l2
      if l2 = 0 then JF.fin 0 else prod.div (JF.fin l2_sqrt))

/-! ### Lemmas about the association-list model of JS objects -/

theorem mapFind_eq_none_iff (m : StrMap) (k : String) :
    mapFind m k = none ↔ k ∉ m.map Prod.fst := by
  induction m with
  | nil => simp [mapFind]
  | cons kv m ih =>
    by_cases h : kv.1 = k
    · simp [mapFind, h]
    · simp [mapFind, h, ih, Ne.symm h]

theorem mapUpdate_keys (m : StrMap) (k : String) (f : VocabItem → VocabItem) :
    (mapUpdate m k f).map Prod.fst = m.map Prod.fst := by
  simp only [mapUpdate, List.map_map]
  apply List.map_congr_left
  intro kv _
  by_cases h : kv.1 = k <;> simp [h]

theorem mapFind_mapUpdate_self (m : StrMap) (k : String) (f : VocabItem → VocabItem) :
    mapFind (mapUpdate m k f) k = (mapFind m k).map f := by
  induction m with
  | nil => rfl
  | cons kv m ih =>
    by_cases h : kv.1 = k
    · simp [mapUpdate, mapFind, h]
    · simpa [mapUpdate, mapFind, h] using ih

theorem mapFind_mapUpdate_ne (m : StrMap) (k k' : String) (f : VocabItem → VocabItem)
    (h : k' ≠ k) :
    mapFind (mapUpdate m k f) k' = mapFind m k' := by
  induction m with
  | nil => rfl
  | cons kv m ih =>
    by_cases hk : kv.1 = k
    · have hk' : kv.1 ≠ k' := fun hc => h (hc ▸ hk ▸ rfl)
      simpa [mapUpdate, mapFind, hk, hk', Ne.symm h] using ih
    · by_cases hk2 : kv.1 = k'
      · simp [mapUpdate, mapFind, hk, hk2, h]
      · simpa [mapUpdate, mapFind, hk, hk2] using ih

theorem vocabCount_mapUpdate (m : StrMap) (k : String) (f : VocabItem → VocabItem)
    (hf : ∀ it, (f it).count = it.count) (w : String) :
    vocabCount (mapUpdate m k f) w = vocabCount m w := by
  by_cases h : w = k
  · subst h
    simp only [vocabCount, mapFind_mapUpdate_self]
    cases mapFind m w with
    | none => rfl
    | some it => simp [hf]
  · simp [vocabCount, mapFind_mapUpdate_ne m k w f h]

theorem mapSet_of_not_mem (m : StrMap) (k : String) (v : VocabItem)
    (h : k ∉ m.map Prod.fst) : mapSet m k v = m ++ [(k, v)] := by
  induction m with
  | nil => rfl
  | cons kv m ih =>
    simp only [List.map_cons, List.mem_cons, not_or] at h
    simp [mapSet, Ne.symm h.1, ih h.2]

theorem mapFind_append (m₁ m₂ : StrMap) (k : String) :
    mapFind (m₁ ++ m₂) k = (mapFind m₁ k).or (mapFind m₂ k) := by
  induction m₁ with
  | nil => simp [mapFind]
  | cons kv m ih =>
    by_cases h : kv.1 = k
    · simp [mapFind, h]
    · simp [mapFind, h, ih]

theorem mem_iff_mapFind (m : StrMap) (hk : (m.map Prod.fst).Nodup) (kv : String × VocabItem) :
    kv ∈ m ↔ mapFind m kv.1 = some kv.2 := by
  induction m with
  | nil => simp [mapFind]
  | cons hd tl ih =>
    simp only [List.map_cons, List.nodup_cons] at hk
    constructor
    · intro hmem
      rcases List.mem_cons.1 hmem with rfl | htl
      · simp [mapFind]
      · have hne : hd.1 ≠ kv.1 := by
          intro he
          exact hk.1 (he ▸ List.mem_map_of_mem Prod.fst htl)
        simpa [mapFind, hne] using (ih hk.2).1 htl
    · intro hfind
      by_cases hbe : hd.1 = kv.1
      · simp only [mapFind, if_pos hbe, Option.some.injEq] at hfind
        exact (Prod.ext hbe hfind) ▸ List.mem_cons_self hd tl
      · simp only [mapFind, if_neg hbe] at hfind
        exact List.mem_cons_of_mem hd ((ih hk.2).2 hfind)

theorem mapFind_mapSet_self (m : StrMap) (k : String) (v : VocabItem) :
    mapFind (mapSet m k v) k = some v := by
  induction m with
  | nil => simp [mapSet, mapFind]
  | cons kv m ih =>
    by_cases h : kv.1 = k
    · simp [mapSet, mapFind, h]
    · simp [mapSet, mapFind, h, ih]

/-! ### Invariants of the build_vocab phases -/

theorem countStep_inv (st : StrMap × List String) (w : String)
    (h1 : st.1.map Prod.fst = st.2) (h2 : st.2.Nodup) :
    (countStep st w).1.map Prod.fst = (countStep st w).2 ∧ (countStep st w).2.Nodup ∧
      ((countStep st w).2 = st.2 ∨ (countStep st w).2 = st.2 ++ [w]) := by
  unfold countStep
  by_cases h : (mapFind st.1 w).isSome
  · simp [h, mapUpdate_keys, h1, h2]
  · have hw : w ∉ st.2 := by
      rw [← h1]
      exact (mapFind_eq_none_iff _ _).1 (Option.not_isSome_iff_eq_none.1 h)
    have hnd : (st.2 ++ [w]).Nodup := by
      simp [List.nodup_append, h2, hw]
    simp [h, mapUpdate_keys, h1, hnd]

theorem foldl_countStep_inv (ws : List String) (st : StrMap × List String)
    (h1 : st.1.map Prod.fst = st.2) (h2 : st.2.Nodup) :
    (ws.foldl countStep st).1.map Prod.fst = (ws.foldl countStep st).2 ∧
    (ws.foldl countStep st).2.Nodup ∧
    ∀ w ∈ (ws.foldl countStep st).2, w ∈ st.2 ∨ w ∈ ws := by
  induction ws generalizing st with
  | nil => exact ⟨h1, h2, fun w hw => Or.inl hw⟩
  | cons x ws ih =>
    obtain ⟨g1, g2, g3⟩ := countStep_inv st x h1 h2
    obtain ⟨r1, r2, r3⟩ := ih (countStep st x) g1 g2
    refine ⟨r1, r2, ?_⟩
    intro w hw
    rcases r3 w hw with hin | hin
    · rcases g3 with he | he
      · exact Or.inl (he ▸ hin)
      · rw [he] at hin
        rcases List.mem_append.1 hin with h' | h'
        · exact Or.inl h'
        · simp only [List.mem_singleton] at h'
          exact Or.inr (by simp [h'])
    · exact Or.inr (List.mem_cons_of_mem x hin)

theorem countWords_inv (sentences : List (List String)) :
    (countWords sentences).1.map Prod.fst = (countWords sentences).2 ∧
    (countWords sentences).2.Nodup ∧
    ∀ w ∈ (countWords sentences).2, w ∈ sentences.flatten := by
  suffices h : ∀ st : StrMap × List String, st.1.map Prod.fst = st.2 → st.2.Nodup →
      (sentences.foldl (fun st ws => ws.foldl countStep st) st).1.map Prod.fst
        = (sentences.foldl (fun st ws => ws.foldl countStep st) st).2 ∧
      (sentences.foldl (fun st ws => ws.foldl countStep st) st).2.Nodup ∧
      ∀ w ∈ (sentences.foldl (fun st ws => ws.foldl countStep st) st).2,
        w ∈ st.2 ∨ w ∈ sentences.flatten by
    obtain ⟨a, b, c⟩ := h ([], []) rfl List.nodup_nil
    exact ⟨a, b, fun w hw => (c w hw).resolve_left (by simp)⟩
  induction sentences with
  | nil => exact fun st h1 h2 => ⟨h1, h2, fun w hw => Or.inl hw⟩
  | cons ws rest ih =>
    intro st h1 h2
    obtain ⟨g1, g2, g3⟩ := foldl_countStep_inv ws st h1 h2
    obtain ⟨r1, r2, r3⟩ := ih (ws.foldl countStep st) g1 g2
    refine ⟨r1, r2, ?_⟩
    intro w hw
    rcases r3 w hw with hin | hin
    · rcases g3 w hin with h' | h'
      · exact Or.inl h'
      · exact Or.inr (by simp [h'])
    · exact Or.inr (by simp [hin])

theorem drFold_spec (mc : Nat) (l : StrMap) (acc : StrMap × List String) :
    ((l.foldl (drStep mc) acc).1).map Prod.fst
      = (acc.1).map Prod.fst ++ (l.filter (fun kv => decide (mc ≤ kv.2.count))).map Prod.fst ∧
    (l.foldl (drStep mc) acc).2
      = acc.2 ++ (l.filter (fun kv => decide (mc ≤ kv.2.count))).map Prod.fst := by
  induction l generalizing acc with
  | nil => simp
  | cons kv l ih =>
    obtain ⟨a, b⟩ := ih (drStep mc acc kv)
    rw [List.foldl_cons]
    by_cases h : mc ≤ kv.2.count
    · have hstep : drStep mc acc kv
          = (acc.1 ++ [(kv.1, ⟨acc.2.length, kv.2.count⟩)], acc.2 ++ [kv.1]) := by
        simp [drStep, h]
      refine ⟨?_, ?_⟩
      · rw [a, hstep]; simp [List.filter_cons, h]
      · rw [b, hstep]; simp [List.filter_cons, h]
    · have hstep : drStep mc acc kv = acc := by simp [drStep, h]
      refine ⟨?_, ?_⟩
      · rw [a, hstep]; simp [List.filter_cons, h]
      · rw [b, hstep]; simp [List.filter_cons, h]

theorem discardRare_inv (mc : Nat) (st : StrMap × List String)
    (h1 : st.1.map Prod.fst = st.2) (h2 : st.2.Nodup) :
    (discardRare mc st).1.map Prod.fst = (discardRare mc st).2 ∧
    (discardRare mc st).2.Nodup ∧
    ∀ w ∈ (discardRare mc st).2, w ∈ st.2 := by
  by_cases hmc : mc > 1
  · obtain ⟨e1, e2⟩ := drFold_spec mc st.1 ([], [])
    simp only [List.map_nil, List.nil_append] at e1 e2
    have hsub : List.Sublist
        ((st.1.filter (fun kv => decide (mc ≤ kv.2.count))).map Prod.fst)
        (st.1.map Prod.fst) := (List.filter_sublist st.1).map Prod.fst
    rw [h1] at hsub
    simp only [discardRare, if_pos hmc]
    refine ⟨e1.trans e2.symm, ?_, ?_⟩
    · rw [e2]
      exact hsub.nodup h2
    · intro w hw
      rw [e2] at hw
      exact hsub.subset hw
  · simp only [discardRare, if_neg hmc]
    exact ⟨h1, h2, fun _ h => h⟩

theorem idxLoop_keys (i2w : List String) (ps : List Nat) (m : StrMap) :
    (idxLoop i2w ps m).map Prod.fst = m.map Prod.fst := by
  induction ps generalizing m with
  | nil => rfl
  | cons p ps ih =>
    show (idxLoop i2w ps (mapUpdate m _ _)).map Prod.fst = _
    rw [ih, mapUpdate_keys]

theorem idxLoop_count (i2w : List String) (ps : List Nat) (m : StrMap) (w : String) :
    vocabCount (idxLoop i2w ps m) w = vocabCount m w := by
  induction ps generalizing m with
  | nil => rfl
  | cons p ps ih =>
    show vocabCount (idxLoop i2w ps (mapUpdate m _ _)) w = _
    rw [ih]
    exact vocabCount_mapUpdate m (i2w.getD p "") (fun it => ⟨p, it.count⟩) (fun _ => rfl) w

theorem idxLoop_find_miss (i2w : List String) (k : String) :
    ∀ (ps : List Nat) (m : StrMap), (∀ i ∈ ps, i2w.getD i "" ≠ k) →
      mapFind (idxLoop i2w ps m) k = mapFind m k := by
  intro ps
  induction ps with
  | nil => intro m _; rfl
  | cons p ps ih =>
    intro m h
    show mapFind (idxLoop i2w ps (mapUpdate m _ _)) k = _
    rw [ih _ (fun i hi => h i (List.mem_cons_of_mem p hi)),
      mapFind_mapUpdate_ne _ _ _ _ (Ne.symm (h p (List.mem_cons_self p ps)))]

theorem idxLoop_find_hit (i2w : List String) (k : String) (j : Nat)
    (hj : i2w.getD j "" = k) :
    ∀ (ps : List Nat) (m : StrMap), ps.Nodup → j ∈ ps →
      (∀ i ∈ ps, i ≠ j → i2w.getD i "" ≠ k) →
      mapFind (idxLoop i2w ps m) k = (mapFind m k).map (fun it => ⟨j, it.count⟩) := by
  intro ps
  induction ps with
  | nil => intro m _ hmem _; cases hmem
  | cons p ps ih =>
    intro m hps hmem huniq
    rcases List.mem_cons.1 hmem with rfl | hmem'
    · have hnotin : j ∉ ps := (List.nodup_cons.1 hps).1
      have hmiss : ∀ i ∈ ps, i2w.getD i "" ≠ k := fun i hi =>
        huniq i (List.mem_cons_of_mem j hi) (fun he => hnotin (he ▸ hi))
      show mapFind (idxLoop i2w ps (mapUpdate m _ _)) k = _
      rw [idxLoop_find_miss _ _ _ _ hmiss, hj, mapFind_mapUpdate_self]
    · have hpj : p ≠ j := fun he => (List.nodup_cons.1 hps).1 (he ▸ hmem')
      have hp : i2w.getD p "" ≠ k := huniq p (List.mem_cons_self p ps) hpj
      show mapFind (idxLoop i2w ps (mapUpdate m _ _)) k = _
      rw [ih _ (List.nodup_cons.1 hps).2 hmem'
        (fun i hi hij => huniq i (List.mem_cons_of_mem p hi) hij),
        mapFind_mapUpdate_ne _ _ _ _ (Ne.symm hp)]

theorem map_indexOf_self (l : List String) (h : l.Nodup) :
    l.map (fun w => l.indexOf w) = List.range l.length := by
  apply List.ext_getElem (by simp)
  intro i h1 h2
  simp only [List.getElem_map, List.getElem_range]
  exact List.indexOf_getElem h i (by simpa using h1)

/-- Combined correctness facts about the final `build_vocab` state, for any
corpus whose tokens do not include the null word itself:  the sentinel is the
entry at index 0 with count 1, keys are unique and match `index2word`, each
entry's index is its `index2word` position (so the indices are a dense
permutation of `[0, vocab_size)`), and positions `1..` are sorted by
non-increasing count. -/
theorem build_vocab_props (corpus : String) (minCount : Nat) (m : StrMap)
    (i2w : List String) (heq : build_vocab corpus minCount = (m, i2w))
    (hnull : nullWord ∉ (splitSentences corpus).flatten) :
    mapFind m nullWord = some ⟨0, 1⟩ ∧
    i2w.Nodup ∧
    (m.map Prod.fst).Perm i2w ∧
    (∀ kv ∈ m, kv.2.idx = i2w.indexOf kv.1) ∧
    (m.map (fun kv => kv.2.idx)).Perm (List.range i2w.length) ∧
    List.Chain' (fun a b => vocabCount m b ≤ vocabCount m a) (i2w.drop 1) := by
  obtain ⟨c1, c2, c3⟩ := countWords_inv (splitSentences corpus)
  obtain ⟨d1, d2, d3⟩ :=
    discardRare_inv minCount (countWords (splitSentences corpus)) c1 c2
  set st1 := discardRare minCount (countWords (splitSentences corpus)) with hst1
  set sorted := sortByCount st1.1 st1.2 with hsorted
  have hperm : sorted.Perm st1.2 := List.perm_insertionSort _ _
  have hnodup_s : sorted.Nodup := hperm.nodup_iff.2 d2
  have hnull_st1 : nullWord ∉ st1.2 := fun h => hnull (c3 _ (d3 _ h))
  have hnull_sorted : nullWord ∉ sorted := fun h => hnull_st1 (hperm.subset h)
  have hfinal : (m, i2w)
      = (idxLoop (nullWord :: sorted) ((List.range (nullWord :: sorted).length).drop 1)
          (mapSet st1.1 nullWord ⟨0, 1⟩), nullWord :: sorted) := heq ▸ rfl
  have hm : m = idxLoop (nullWord :: sorted) ((List.range (nullWord :: sorted).length).drop 1)
      (mapSet st1.1 nullWord ⟨0, 1⟩) := congrArg Prod.fst hfinal
  have hi2w : i2w = nullWord :: sorted := congrArg Prod.snd hfinal
  have hA : mapSet st1.1 nullWord ⟨0, 1⟩ = st1.1 ++ [(nullWord, ⟨0, 1⟩)] :=
    mapSet_of_not_mem _ _ _ (by rw [d1]; exact hnull_st1)
  have hps : (List.range (nullWord :: sorted).length).drop 1
      = (List.range sorted.length).map Nat.succ := by
    simp [List.range_succ_eq_map]
  have hfindA_null : mapFind (mapSet st1.1 nullWord ⟨0, 1⟩) nullWord = some ⟨0, 1⟩ :=
    mapFind_mapSet_self _ _ _
  have hgetD : ∀ i' : Nat, (nullWord :: sorted).getD (Nat.succ i') "" = sorted.getD i' "" :=
    fun _ => rfl
  have hmem_sorted_of_getD : ∀ i' : Nat, i' < sorted.length →
      sorted.getD i' "" ∈ sorted := by
    intro i' hi'
    rw [List.getD_eq_getElem sorted "" hi']
    exact List.getElem_mem hi'
  -- (a) the sentinel entry
  have hfind0 : mapFind m nullWord = some ⟨0, 1⟩ := by
    rw [hm, idxLoop_find_miss, hfindA_null]
    intro i hi
    rw [hps] at hi
    obtain ⟨i', hi', rfl⟩ := List.mem_map.1 hi
    rw [hgetD]
    intro he
    exact hnull_sorted (he ▸ hmem_sorted_of_getD i' (List.mem_range.1 hi'))
  -- (b) entries of the sorted tail
  have hfind1 : ∀ j (hj : j < sorted.length),
      mapFind m sorted[j] = (mapFind st1.1 sorted[j]).map (fun it => ⟨j + 1, it.count⟩) := by
    intro j hj
    have hjne : sorted[j] ≠ nullWord := fun he => hnull_sorted (he ▸ List.getElem_mem hj)
    have hgetj : (nullWord :: sorted).getD (j + 1) "" = sorted[j] := by
      rw [hgetD, List.getD_eq_getElem sorted "" hj]
    rw [hm, idxLoop_find_hit (nullWord :: sorted) sorted[j] (j + 1) hgetj]
    · have hsingle : mapFind [(nullWord, (⟨0, 1⟩ : VocabItem))] sorted[j] = none := by
        simp [mapFind, Ne.symm hjne]
      rw [hA, mapFind_append, hsingle, Option.or_none]
    · rw [hps]
      exact (List.nodup_range sorted.length).map (fun _ _ => Nat.succ.inj)
    · rw [hps]
      exact List.mem_map.2 ⟨j, List.mem_range.2 hj, rfl⟩
    · intro i hi hne
      rw [hps] at hi
      obtain ⟨i', hi', rfl⟩ := List.mem_map.1 hi
      have hi'lt : i' < sorted.length := List.mem_range.1 hi'
      rw [hgetD, List.getD_eq_getElem sorted "" hi'lt]
      intro he
      exact hne (congrArg Nat.succ ((List.Nodup.getElem_inj_iff hnodup_s).1 he))
  -- keys of the final map
  have hkeys : m.map Prod.fst = st1.2 ++ [nullWord] := by
    rw [hm, idxLoop_keys, hA, List.map_append, d1]
    rfl
  have hkeysperm : (m.map Prod.fst).Perm i2w := by
    rw [hkeys, hi2w]
    exact (hperm.symm.append_right [nullWord]).trans (List.perm_append_singleton _ _)
  have hkeys_nodup : (m.map Prod.fst).Nodup := by
    rw [hkeys]
    simp [List.nodup_append, d2, hnull_st1]
  have hi2w_nodup : i2w.Nodup := by
    rw [hi2w]
    exact List.nodup_cons.2 ⟨hnull_sorted, hnodup_s⟩
  -- (c) every entry's idx is its position in index2word
  have hidx : ∀ kv ∈ m, kv.2.idx = i2w.indexOf kv.1 := by
    intro kv hkv
    have hfind := (mem_iff_mapFind m hkeys_nodup kv).1 hkv
    have hkmem : kv.1 ∈ st1.2 ++ [nullWord] := hkeys ▸ List.mem_map_of_mem Prod.fst hkv
    rcases List.mem_append.1 hkmem with hin | hin
    · -- a real token: located in sorted at a unique position j
      have hins : kv.1 ∈ sorted := hperm.symm.subset hin
      obtain ⟨j, hj, hget⟩ := List.mem_iff_getElem.1 hins
      have := hfind1 j hj
      rw [hget, hfind] at this
      have hst1find : mapFind st1.1 kv.1 ≠ none := by
        intro hc
        exact (mapFind_eq_none_iff _ _).1 hc (by rw [d1]; exact hin)
      obtain ⟨it, hit⟩ := Option.ne_none_iff_exists'.1 hst1find
      rw [hit, Option.map_some'] at this
      have hkv2 : kv.2 = ⟨j + 1, it.count⟩ := Option.some.inj this
      have hne : kv.1 ≠ nullWord := fun he => hnull_sorted (he ▸ hins)
      rw [hi2w, hkv2]
      show j + 1 = (nullWord :: sorted).indexOf kv.1
      rw [List.indexOf_cons_ne sorted (Ne.symm hne), ← hget,
        List.indexOf_getElem hnodup_s j hj]
    · -- the sentinel
      have hknull : kv.1 = nullWord := List.mem_singleton.1 hin
      rw [hknull] at hfind
      rw [hfind0] at hfind
      have hkv2 : kv.2 = ⟨0, 1⟩ := (Option.some.inj hfind).symm
      rw [hi2w, hknull, hkv2, List.indexOf_cons_self]
  -- (d) indices are a dense permutation of the positions
  have hidxperm : (m.map (fun kv => kv.2.idx)).Perm (List.range i2w.length) := by
    have hmapidx : m.map (fun kv => kv.2.idx)
        = (m.map Prod.fst).map (fun w => i2w.indexOf w) := by
      rw [List.map_map]
      exact List.map_congr_left (fun kv hkv => hidx kv hkv)
    rw [hmapidx, ← map_indexOf_self i2w hi2w_nodup]
    exact hkeysperm.map _
  -- (e) descending counts along the tail
  have hcount_eq : ∀ w ∈ sorted, vocabCount m w = vocabCount st1.1 w := by
    intro w hw
    have hwne : w ≠ nullWord := fun he => hnull_sorted (he ▸ hw)
    have hsingle : mapFind [(nullWord, (⟨0, 1⟩ : VocabItem))] w = none := by
      simp [mapFind, Ne.symm hwne]
    rw [hm, idxLoop_count]
    unfold vocabCount
    rw [hA, mapFind_append, hsingle, Option.or_none]
  have hpair : List.Pairwise (fun a b => vocabCount st1.1 b ≤ vocabCount st1.1 a) sorted := by
    haveI : IsTotal String (fun a b => vocabCount st1.1 b ≤ vocabCount st1.1 a) :=
      ⟨fun a b => le_total _ _⟩
    haveI : IsTrans String (fun a b => vocabCount st1.1 b ≤ vocabCount st1.1 a) :=
      ⟨fun _ _ _ hab hbc => le_trans hbc hab⟩
    exact List.sorted_insertionSort _ st1.2
  have hchain : List.Chain' (fun a b => vocabCount m b ≤ vocabCount m a) (i2w.drop 1) := by
    have : List.Pairwise (fun a b => vocabCount m b ≤ vocabCount m a) sorted := by
      refine List.Pairwise.imp_of_mem ?_ hpair
      intro a b ha hb h
      rw [hcount_eq a ha, hcount_eq b hb]
      exact h
    rw [hi2w]
    exact this.chain'
  exact ⟨hfind0, hi2w_nodup, hkeysperm, hidx, hidxperm, hchain⟩

/-! ### The cumulative negative-sampling table -/

theorem sum_map_div (l : List String) (g : String → ℚ) (c : ℚ) :
    (l.map (fun x => g x / c)).sum = (l.map g).sum / c := by
  induction l with
  | nil => simp
  | cons x l ih => simp [ih, add_div]

theorem jround_mono {q q' : ℚ} (h : q ≤ q') : jround q ≤ jround q' :=
  Int.floor_le_floor (by linarith)

theorem jround_nonneg {q : ℚ} (h : 0 ≤ q) : 0 ≤ jround q :=
  Int.le_floor.2 (by push_cast; linarith)

theorem jround_intCast (n : ℤ) : jround (n : ℚ) = n := by
  unfold jround
  rw [add_comm, Int.floor_add_int]
  norm_num

/-- Normal form of the cumulative-table entries over the list of per-word
probability masses. -/
theorem buildCumTable_eq (jpow : Nat → ℚ) (m : StrMap) (i2w : List String) :
    buildCumTable jpow m i2w
      = (List.range (i2w.map (fun w => jpow (vocabCount m w)
          / (i2w.map (fun w => jpow (vocabCount m w))).sum)).length).map
        (fun i => jround (((i2w.map (fun w => jpow (vocabCount m w)
          / (i2w.map (fun w => jpow (vocabCount m w))).sum)).take (i + 1)).sum
            * (cum_table_domain : ℚ))) := by
  unfold buildCumTable
  rw [List.length_map]
  apply List.map_congr_left
  intro i _
  rw [List.map_take]

theorem cumlist_take_nonneg (L : List ℚ) (hL : ∀ x ∈ L, 0 ≤ x) (i : Nat) :
    0 ≤ (L.take i).sum :=
  List.sum_nonneg (fun x hx => hL x (List.mem_of_mem_take hx))

theorem cumlist_take_le_sum (L : List ℚ) (hL : ∀ x ∈ L, 0 ≤ x) (i : Nat) :
    (L.take i).sum ≤ L.sum := by
  have hdrop : 0 ≤ (L.drop i).sum :=
    List.sum_nonneg (fun x hx => hL x (List.mem_of_mem_drop hx))
  have := List.sum_take_add_sum_drop L i
  linarith

theorem cumlist_take_mono (L : List ℚ) (hL : ∀ x ∈ L, 0 ≤ x) (i : Nat) :
    (L.take (i + 1)).sum ≤ (L.take (i + 2)).sum := by
  by_cases h : i + 1 < L.length
  · rw [List.sum_take_succ _ _ h]
    have := hL L[i + 1] (List.getElem_mem h)
    linarith
  · rw [List.take_of_length_le (by omega), List.take_of_length_le (by omega)]

theorem cumTable_props (jpow : Nat → ℚ) (m : StrMap) (i2w : List String)
    (hpownn : ∀ n, 0 ≤ jpow n)
    (hT : 1 ≤ (i2w.map (fun w => jpow (vocabCount m w))).sum) :
    (buildCumTable jpow m i2w).length = i2w.length ∧
    List.Chain' (· ≤ ·) (buildCumTable jpow m i2w) ∧
    (∀ e ∈ buildCumTable jpow m i2w, 0 ≤ e ∧ e ≤ cum_table_domain) ∧
    (i2w ≠ [] →
      (buildCumTable jpow m i2w).getD ((buildCumTable jpow m i2w).length - 1) 0
        = cum_table_domain) := by
  have hT0 : (0 : ℚ) < (i2w.map (fun w => jpow (vocabCount m w))).sum :=
    lt_of_lt_of_le one_pos hT
  set L : List ℚ := i2w.map (fun w => jpow (vocabCount m w)
      / (i2w.map (fun w => jpow (vocabCount m w))).sum) with hLdef
  have hL0 : ∀ x ∈ L, 0 ≤ x := by
    intro x hx
    rw [hLdef] at hx
    obtain ⟨w, _, rfl⟩ := List.mem_map.1 hx
    exact div_nonneg (hpownn _) (le_of_lt hT0)
  have hLlen : L.length = i2w.length := by rw [hLdef, List.length_map]
  have htotal : L.sum = 1 := by
    rw [hLdef, sum_map_div, div_self (ne_of_gt hT0)]
  have hkey := buildCumTable_eq jpow m i2w
  rw [← hLdef] at hkey
  have hD0 : (0 : ℚ) ≤ (cum_table_domain : ℚ) := by norm_num [cum_table_domain]
  have hlen : (buildCumTable jpow m i2w).length = i2w.length := by
    rw [hkey, List.length_map, List.length_range, hLlen]
  refine ⟨hlen, ?_, ?_, ?_⟩
  · rw [hkey, List.chain'_map]
    cases hn : L.length with
    | zero => simp [hn]
    | succ n =>
      rw [List.chain'_range_succ]
      intro i _
      exact jround_mono (mul_le_mul_of_nonneg_right (cumlist_take_mono L hL0 i) hD0)
  · intro e he
    rw [hkey] at he
    obtain ⟨i, _, rfl⟩ := List.mem_map.1 he
    constructor
    · exact jround_nonneg (mul_nonneg (cumlist_take_nonneg L hL0 _) hD0)
    · have h1 : (L.take (i + 1)).sum * (cum_table_domain : ℚ) ≤ (cum_table_domain : ℚ) := by
        have hle : (L.take (i + 1)).sum ≤ 1 := htotal ▸ cumlist_take_le_sum L hL0 (i + 1)
        nlinarith [cumlist_take_nonneg L hL0 (i + 1)]
      exact (jround_mono h1).trans_eq (jround_intCast _)
  · intro hne
    have hlen1 : 1 ≤ i2w.length := List.length_pos.2 hne
    rw [hlen, hkey, List.getD_eq_getElem _ _ (by rw [List.length_map, List.length_range]; omega)]
    rw [List.getElem_map, List.getElem_range]
    have hfull : L.take (i2w.length - 1 + 1) = L := by
      rw [(by omega : i2w.length - 1 + 1 = i2w.length), ← hLlen, List.take_length]
    rw [hfull, htotal, one_mul, jround_intCast]

theorem build_vocab_sentinel_count (corpus : String) (minCount : Nat) :
    vocabCount (build_vocab corpus minCount).1 nullWord = 1 := by
  show vocabCount (idxLoop _ _ (mapSet _ nullWord ⟨0, 1⟩)) nullWord = 1
  rw [idxLoop_count]
  unfold vocabCount
  rw [mapFind_mapSet_self]

theorem build_vocab_snd_cons (corpus : String) (minCount : Nat) :
    (build_vocab corpus minCount).2
      = nullWord :: sortByCount (discardRare minCount (countWords (splitSentences corpus))).1
          (discardRare minCount (countWords (splitSentences corpus))).2 := rfl

/-! ### Claim theorems about the vocabulary and the cumulative table -/

/-- **C4, counterexample**: on the corpus whose only token is the literal null
character (count 2, surviving the default `min_count = 2`), the "sentinel
write" overwrites the real token's entry, the final entry for the null word
has index 1 (not 0), and the vocabulary indices are not a permutation of
`[0, vocab_size)` (index 0 is held by no entry). -/
theorem C4_counterexample :
    mapFind (build_vocab "\x00 \x00" 2).1 nullWord = some ⟨1, 1⟩ ∧
    ¬ (((build_vocab "\x00 \x00" 2).1.map (fun kv => kv.2.idx)).Perm
        (List.range (build_vocab "\x00 \x00" 2).2.length)) := by
  decide

/-- **C4** (as amended: for any corpus none of whose tokens is the null
character `'\0'` itself): after `build_vocab`, the sentinel null word is the
entry at index 0 with count exactly 1, `index2word` has no duplicates, the
vocabulary keys are exactly the `index2word` entries (each token holds
exactly one entry), every entry's index is its position in `index2word` — so
the indices form a dense permutation of `[0, vocab_size)` — and entries at
positions `1..vocab_size-1` are ordered by non-increasing count (with the
stable-sort tie-break). -/
theorem C4_vocab_dense_permutation (corpus : String) (minCount : Nat)
    (hnull : nullWord ∉ (splitSentences corpus).flatten) :
    mapFind (build_vocab corpus minCount).1 nullWord = some ⟨0, 1⟩ ∧
    (build_vocab corpus minCount).2.Nodup ∧
    ((build_vocab corpus minCount).1.map Prod.fst).Perm (build_vocab corpus minCount).2 ∧
    (∀ kv ∈ (build_vocab corpus minCount).1,
      kv.2.idx = (build_vocab corpus minCount).2.indexOf kv.1) ∧
    ((build_vocab corpus minCount).1.map (fun kv => kv.2.idx)).Perm
      (List.range (build_vocab corpus minCount).2.length) ∧
    List.Chain' (fun a b => vocabCount (build_vocab corpus minCount).1 b
      ≤ vocabCount (build_vocab corpus minCount).1 a)
      ((build_vocab corpus minCount).2.drop 1) :=
  build_vocab_props corpus minCount _ _ rfl hnull

/-- Witness for C4 at a concrete corpus, discharging its hypothesis. -/
theorem C4_vocab_dense_permutation_witness :
    nullWord ∉ (splitSentences "the cat sat\nthe cat ran\nthe dog").flatten ∧
    mapFind (build_vocab "the cat sat\nthe cat ran\nthe dog" 2).1 nullWord = some ⟨0, 1⟩ :=
  ⟨by decide,
    (C4_vocab_dense_permutation "the cat sat\nthe cat ran\nthe dog" 2 (by decide)).1⟩

/-- **C9, counterexample**: with `min_count = 1` the empty corpus yields the
single empty-string token plus the sentinel, i.e. a vocabulary of size 2,
not 1. -/
theorem C9_counterexample :
    (build_vocab "" 1).2 = [nullWord, ""] ∧ (build_vocab "" 1).2.length ≠ 1 := by
  decide

/-- **C9** (as amended: for `min_count ≥ 2`, which includes the default 2):
on the empty corpus, `build_vocab` completes and produces a vocabulary of
size exactly 1 containing only the sentinel null word at index 0 with count
1 (the empty-string token produced by splitting the empty corpus is pruned). -/
theorem C9_empty_corpus (minCount : Nat) (h : 2 ≤ minCount) :
    build_vocab "" minCount = ([(nullWord, ⟨0, 1⟩)], [nullWord]) := by
  have hcw : countWords (splitSentences "") = ([("", ⟨0, 1⟩)], [""]) := by decide
  have hdr : discardRare minCount ([("", ⟨0, 1⟩)], [""]) = ([], []) := by
    have h1 : 1 < minCount := h
    have h2 : ¬ ((1 : Nat) ≥ minCount) := by omega
    simp [discardRare, drStep, h1, h2]
  show addNullAndIndex (sortStep (discardRare minCount (countWords (splitSentences "")))) = _
  rw [hcw, hdr]
  decide

/-- Witness for C9 at the default `min_count = 2`. -/
theorem C9_empty_corpus_witness :
    2 ≤ 2 ∧ build_vocab "" 2 = ([(nullWord, ⟨0, 1⟩)], [nullWord]) :=
  ⟨by decide, C9_empty_corpus 2 (by decide)⟩

/-- **C5**: after `build_vocab` on any corpus, the cumulative
negative-sampling table has exactly `vocab_size` entries, is monotonically
non-decreasing, every entry lies in `[0, 2^31 - 1]`, and its last entry
equals the domain constant `2^31 - 1`.  `Math.pow(·, 0.75)` is abstracted by
any `jpow` that is non-negative and fixes 1 (as `x ^ 0.75` does). -/
theorem C5_cum_table_invariants (corpus : String) (minCount : Nat) (jpow : Nat → ℚ)
    (hpow1 : jpow 1 = 1) (hpownn : ∀ n, 0 ≤ jpow n) :
    (buildCumTable jpow (build_vocab corpus minCount).1
        (build_vocab corpus minCount).2).length = (build_vocab corpus minCount).2.length ∧
    List.Chain' (· ≤ ·) (buildCumTable jpow (build_vocab corpus minCount).1
        (build_vocab corpus minCount).2) ∧
    (∀ e ∈ buildCumTable jpow (build_vocab corpus minCount).1
        (build_vocab corpus minCount).2, 0 ≤ e ∧ e ≤ cum_table_domain) ∧
    (buildCumTable jpow (build_vocab corpus minCount).1
        (build_vocab corpus minCount).2).getD
      ((buildCumTable jpow (build_vocab corpus minCount).1
        (build_vocab corpus minCount).2).length - 1) 0 = cum_table_domain := by
  have hc := build_vocab_sentinel_count corpus minCount
  have hrest := build_vocab_snd_cons corpus minCount
  have hT : 1 ≤ ((build_vocab corpus minCount).2.map
      (fun w => jpow (vocabCount (build_vocab corpus minCount).1 w))).sum := by
    rw [hrest, List.map_cons, List.sum_cons, hc, hpow1]
    have hnn : 0 ≤ ((sortByCount (discardRare minCount (countWords (splitSentences corpus))).1
        (discardRare minCount (countWords (splitSentences corpus))).2).map
          (fun w => jpow (vocabCount (build_vocab corpus minCount).1 w))).sum := by
      apply List.sum_nonneg
      intro x hx
      obtain ⟨w, _, rfl⟩ := List.mem_map.1 hx
      exact hpownn _
    linarith
  obtain ⟨h1, h2, h3, h4⟩ := cumTable_props jpow _ _ hpownn hT
  exact ⟨h1, h2, h3, h4 (by rw [hrest]; exact List.cons_ne_nil _ _)⟩

/-! ### Lemmas about the negative-sampling search and the training steps -/

theorem bSearchLoop_le (xs : List ℚ) (x : ℚ) :
    ∀ (n bot top : Nat), top - bot ≤ n → bot ≤ top → bSearchLoop xs x bot top ≤ top := by
  intro n
  induction n with
  | zero =>
    intro bot top h hle
    rw [bSearchLoop, if_neg (by omega : ¬ bot < top)]
    exact hle
  | succ n ih =>
    intro bot top h hle
    by_cases hbt : bot < top
    · rw [bSearchLoop, if_pos hbt]
      have hmid1 : bot ≤ (bot + top) / 2 :=
        Nat.le_div_iff_mul_le (by omega) |>.2 (by omega)
      have hmid2 : (bot + top) / 2 < top := Nat.div_lt_of_lt_mul (by omega)
      by_cases hc0 : xs.getD ((bot + top) / 2) 0 - x = 0
      · rw [if_pos hc0]
        omega
      · rw [if_neg hc0]
        by_cases hcneg : xs.getD ((bot + top) / 2) 0 - x < 0
        · rw [if_pos hcneg]
          exact ih ((bot + top) / 2 + 1) top (by omega) (by omega)
        · rw [if_neg hcneg]
          exact le_trans (ih bot ((bot + top) / 2) (by omega) (by omega)) (le_of_lt hmid2)
    · rw [bSearchLoop, if_neg hbt]
      exact hle

theorem bSearchLoop_lt (xs : List ℚ) (x : ℚ) :
    ∀ (n bot top : Nat), top - bot ≤ n → bot < top → x ≤ xs.getD (top - 1) 0 →
      bSearchLoop xs x bot top < top := by
  intro n
  induction n with
  | zero => intro bot top h hbt _; omega
  | succ n ih =>
    intro bot top h hbt hx
    rw [bSearchLoop, if_pos hbt]
    have hmid1 : bot ≤ (bot + top) / 2 :=
      Nat.le_div_iff_mul_le (by omega) |>.2 (by omega)
    have hmid2 : (bot + top) / 2 < top := Nat.div_lt_of_lt_mul (by omega)
    by_cases hc0 : xs.getD ((bot + top) / 2) 0 - x = 0
    · rw [if_pos hc0]
      exact hmid2
    · rw [if_neg hc0]
      by_cases hcneg : xs.getD ((bot + top) / 2) 0 - x < 0
      · rw [if_pos hcneg]
        by_cases hend : (bot + top) / 2 + 1 < top
        · exact ih _ top (by omega) hend hx
        · have hmide : (bot + top) / 2 = top - 1 := by omega
          rw [hmide] at hcneg
          linarith
      · rw [if_neg hcneg]
        exact lt_of_le_of_lt
          (bSearchLoop_le xs x n bot ((bot + top) / 2) (by omega) (by omega)) hmid2

theorem bSearch_lt_length (xs : List ℚ) (x : ℚ) (hne : xs ≠ [])
    (hlast : x ≤ xs.getD (xs.length - 1) 0) : bSearch xs x < xs.length := by
  have hlen : 0 < xs.length := List.length_pos.2 hne
  unfold bSearch
  rw [if_neg (by omega : ¬ xs.length = 0), if_neg (not_lt.mpr hlast)]
  by_cases h0 : x < xs.getD 0 0
  · rw [if_pos h0]
    exact hlen
  · rw [if_neg h0]
    exact bSearchLoop_lt xs x xs.length 0 xs.length (by omega) hlen hlast

theorem range_one_eq : List.range 1 = [0] := rfl

theorem getD_replicate_zero (n i : Nat) : (List.replicate n (0 : ℚ)).getD i 0 = 0 := by
  by_cases h : i < n
  · rw [List.getD_eq_getElem _ _ (by simpa using h)]
    exact List.getElem_replicate _ _
  · exact List.getD_eq_default _ _ (by simpa using h)

theorem map_getD_range (l : List ℚ) (hidden : Nat) (h : l.length = hidden) :
    (List.range hidden).map (fun j => l.getD j 0) = l := by
  apply List.ext_getElem (by simp [h])
  intro i h1 h2
  simp only [List.getElem_map, List.getElem_range]
  rw [List.getD_eq_getElem _ _ h2]

theorem addScaled_zero_vec (hidden : Nat) (l2 : List ℚ) (g : ℚ)
    (h : l2.length = hidden) :
    addScaled hidden l2 g (List.replicate hidden 0) = l2 := by
  unfold addScaled
  simp only [getD_replicate_zero, mul_zero, add_zero]
  exact map_getD_range l2 hidden h

theorem set_getD_self (l : List (List ℚ)) (n : Nat) (h : n < l.length) :
    l.set n (l.getD n []) = l := by
  rw [List.getD_eq_getElem _ _ h]
  apply List.ext_getElem (by simp)
  intro i h1 h2
  rw [List.getElem_set]
  split
  · simp_all
  · rfl

theorem set_addScaled_zero (hidden : Nat) (syn1 : List (List ℚ)) (t : Nat) (g : ℚ)
    (hrows : ∀ v ∈ syn1, v.length = hidden) :
    syn1.set t (addScaled hidden (syn1.getD t []) g (List.replicate hidden 0)) = syn1 := by
  by_cases h : t < syn1.length
  · have hlen : (syn1.getD t []).length = hidden := by
      rw [List.getD_eq_getElem _ _ h]
      exact hrows _ (List.getElem_mem h)
    rw [addScaled_zero_vec hidden _ g hlen]
    exact set_getD_self syn1 t h
  · exact List.set_eq_of_length_le (by omega)

theorem negStep_zero_l1_syn1 (jexp : ℚ → ℚ) (lr : ℚ) (cumTable : List ℚ)
    (vocabSize hidden : Nat) (wIdx : Nat) (neu1e : List ℚ) (syn1 : List (List ℚ))
    (hrows : ∀ v ∈ syn1, v.length = hidden) (du : Option (ℚ × ℚ)) :
    (negStep jexp lr cumTable vocabSize hidden wIdx (List.replicate hidden 0)
      (neu1e, syn1) du).2 = syn1 := by
  unfold negStep
  cases du with
  | none =>
    simp only
    exact set_addScaled_zero hidden syn1 _ _ hrows
  | some u =>
    simp only
    by_cases ht : negDraw cumTable vocabSize u.1 u.2 = (wIdx : ℤ)
    · rw [if_pos ht]
    · rw [if_neg ht]
      exact set_addScaled_zero hidden syn1 _ _ hrows

theorem negStep_fold_zero_l1_syn1 (jexp : ℚ → ℚ) (lr : ℚ) (cumTable : List ℚ)
    (vocabSize hidden : Nat) (wIdx : Nat) :
    ∀ (ds : List (Option (ℚ × ℚ))) (neu1e : List ℚ) (syn1 : List (List ℚ)),
      (∀ v ∈ syn1, v.length = hidden) →
      (ds.foldl (negStep jexp lr cumTable vocabSize hidden wIdx
        (List.replicate hidden 0)) (neu1e, syn1)).2 = syn1 := by
  intro ds
  induction ds with
  | nil => intro _ _ _; rfl
  | cons d ds ih =>
    intro neu1e syn1 hrows
    rw [List.foldl_cons]
    have hstep := negStep_zero_l1_syn1 jexp lr cumTable vocabSize hidden wIdx
      neu1e syn1 hrows d
    have hpair : negStep jexp lr cumTable vocabSize hidden wIdx
        (List.replicate hidden 0) (neu1e, syn1) d
        = ((negStep jexp lr cumTable vocabSize hidden wIdx
            (List.replicate hidden 0) (neu1e, syn1) d).1, syn1) :=
      Prod.ext rfl hstep
    rw [hpair]
    exact ih _ syn1 hrows

/-! ### Claim theorems about the training steps -/

/-- **C10**: under the construction invariant of the cumulative table (last
entry equals the domain constant) and uniforms in `[0, 1)`, the inverse-CDF
binary search returns an index strictly below `vocab_size` (its
out-of-range result `xs.length` is unreachable), and the full negative draw
(including the sentinel fallback, for `vocab_size ≥ 2`) is a non-negative
in-bounds index, so `syn1[target]` is an in-bounds access. -/
theorem C10_negative_draw_in_bounds (cumTable : List ℚ) (vocabSize : Nat) (u1 u2 : ℚ)
    (hlen : cumTable.length = vocabSize) (hne : cumTable ≠ [])
    (hlast : cumTable.getD (cumTable.length - 1) 0 = ((cum_table_domain : ℤ) : ℚ))
    (hu1 : 0 ≤ u1) (hu1lt : u1 < 1) (hu2 : 0 ≤ u2) (hvs : 2 ≤ vocabSize) :
    bSearch cumTable (u1 * ((cum_table_domain : ℤ) : ℚ)) < vocabSize ∧
    0 ≤ negDraw cumTable vocabSize u1 u2 ∧
    (negDraw cumTable vocabSize u1 u2).toNat < vocabSize := by
  have hD : (0 : ℚ) < ((cum_table_domain : ℤ) : ℚ) := by norm_num [cum_table_domain]
  have hxlt : u1 * ((cum_table_domain : ℤ) : ℚ) < ((cum_table_domain : ℤ) : ℚ) := by
    nlinarith
  have hb : bSearch cumTable (u1 * ((cum_table_domain : ℤ) : ℚ)) < cumTable.length :=
    bSearch_lt_length _ _ hne (by rw [hlast]; exact le_of_lt hxlt)
  rw [hlen] at hb
  refine ⟨hb, ?_, ?_⟩ <;> {
    unfold negDraw
    by_cases ht : ((bSearch cumTable (u1 * ((cum_table_domain : ℤ) : ℚ)) : ℕ) : ℤ) = 0
    · rw [if_pos ht]
      have hfl : 0 ≤ Int.floor (u2 * ((cum_table_domain : ℤ) : ℚ)) :=
        Int.le_floor.2 (by push_cast; nlinarith)
      have hm : (0 : ℤ) < (vocabSize : ℤ) - 1 := by
        have := hvs
        omega
      have h1 : 0 ≤ (Int.floor (u2 * ((cum_table_domain : ℤ) : ℚ))).tmod
          ((vocabSize : ℤ) - 1) := Int.tmod_nonneg _ hfl
      have h2 : (Int.floor (u2 * ((cum_table_domain : ℤ) : ℚ))).tmod
          ((vocabSize : ℤ) - 1) < (vocabSize : ℤ) - 1 := Int.tmod_lt_of_pos _ hm
      first
        | omega
        | (rw [Int.toNat_lt (by omega)]; omega)
    · rw [if_neg ht]
      first
        | positivity
        | (rw [Int.toNat_lt (by positivity)]
           exact_mod_cast hb)
  }

/-- Witness for C10 at a concrete table and uniforms. -/
theorem C10_negative_draw_in_bounds_witness :
    ((0 : ℚ) ≤ 0 ∧ (0 : ℚ) < 1) ∧
    bSearch [(1073741824 : ℚ), 2147483647] (0 * ((cum_table_domain : ℤ) : ℚ)) < 2 :=
  ⟨⟨le_refl 0, by norm_num⟩,
    (C10_negative_draw_in_bounds [(1073741824 : ℚ), 2147483647] 2 0 0
      (by decide) (by decide) (by norm_num [cum_table_domain]) (le_refl 0)
      (by norm_num) (le_refl 0) (by decide)).1⟩

/-- **C3**: accepted negative draws are never the sentinel index 0 (the
fallback redraw lands in `[1, vocab_size-1]`) and never the true target;
each of the `negative` loop iterations yields at most one accepted draw,
and a draw colliding with the true target is skipped without resampling, so
the effective number of negative updates can be strictly below the
configured count (witnessed by a concrete colliding draw). -/
theorem C3_negative_draw_fallback_and_skip (cumTable : List ℚ) (vocabSize wIdx : Nat)
    (us : List (ℚ × ℚ)) (hvs : 2 ≤ vocabSize) (hus : ∀ u ∈ us, (0 : ℚ) ≤ u.2) :
    (∀ t ∈ negTargets cumTable vocabSize wIdx us, t ≠ 0 ∧ t ≠ (wIdx : ℤ)) ∧
    (∀ u1 u2 : ℚ, 0 ≤ u2 →
      ((bSearch cumTable (u1 * ((cum_table_domain : ℤ) : ℚ)) : ℕ) : ℤ) = 0 →
      1 ≤ negDraw cumTable vocabSize u1 u2 ∧
        negDraw cumTable vocabSize u1 u2 ≤ (vocabSize : ℤ) - 1) ∧
    (negTargets cumTable vocabSize wIdx us).length ≤ us.length ∧
    (∃ (cumTable' : List ℚ) (vocabSize' wIdx' : Nat) (us' : List (ℚ × ℚ)),
      2 ≤ vocabSize' ∧ (∀ u ∈ us', (0 : ℚ) ≤ u.2) ∧
      (negTargets cumTable' vocabSize' wIdx' us').length < us'.length) := by
  have hfall : ∀ u1 u2 : ℚ, 0 ≤ u2 →
      ((bSearch cumTable (u1 * ((cum_table_domain : ℤ) : ℚ)) : ℕ) : ℤ) = 0 →
      1 ≤ negDraw cumTable vocabSize u1 u2 ∧
        negDraw cumTable vocabSize u1 u2 ≤ (vocabSize : ℤ) - 1 := by
    intro u1 u2 hu2 hz
    have hD : (0 : ℚ) ≤ ((cum_table_domain : ℤ) : ℚ) := by norm_num [cum_table_domain]
    have hfl : 0 ≤ Int.floor (u2 * ((cum_table_domain : ℤ) : ℚ)) :=
      Int.le_floor.2 (by push_cast; nlinarith)
    have hm : (0 : ℤ) < (vocabSize : ℤ) - 1 := by omega
    have h1 := Int.tmod_nonneg ((vocabSize : ℤ) - 1) hfl
    have h2 := Int.tmod_lt_of_pos (Int.floor (u2 * ((cum_table_domain : ℤ) : ℚ))) hm
    unfold negDraw
    rw [if_pos hz]
    omega
  refine ⟨?_, hfall, ?_, ?_⟩
  · intro t ht
    unfold negTargets at ht
    have htmem := List.mem_of_mem_filter ht
    have htne : t ≠ (wIdx : ℤ) := by
      have := List.of_mem_filter ht
      simpa using this
    obtain ⟨u, hu, hdrw⟩ := List.mem_map.1 htmem
    refine ⟨?_, htne⟩
    by_cases hz : ((bSearch cumTable (u.1 * ((cum_table_domain : ℤ) : ℚ)) : ℕ) : ℤ) = 0
    · have := (hfall u.1 u.2 (hus u hu) hz).1
      omega
    · rw [← hdrw]
      unfold negDraw
      rw [if_neg hz]
      exact hz
  · unfold negTargets
    exact le_trans (List.length_filter_le _ _) (by rw [List.length_map])
  · refine ⟨[1, (2147483647 : ℚ)], 2, 1, [(0, 0)], by omega, ?_, ?_⟩
    · intro u hu
      simp only [List.mem_singleton] at hu
      rw [hu]
    · have hdraw : negDraw [1, (2147483647 : ℚ)] 2 0 0 = 1 := by
        have hbs : bSearch [1, (2147483647 : ℚ)] (0 * ((cum_table_domain : ℤ) : ℚ))
            = 0 := by
          unfold bSearch
          rw [if_neg (by norm_num)]
          rw [if_neg (by norm_num [cum_table_domain])]
          rw [if_pos (by norm_num)]
        unfold negDraw
        rw [hbs]
        norm_num
      unfold negTargets
      simp [hdraw]

/-- Witness for C3 at a concrete vocabulary size and draw list. -/
theorem C3_negative_draw_fallback_and_skip_witness :
    2 ≤ 2 ∧ (negTargets [] 2 0 []).length ≤ ([] : List (ℚ × ℚ)).length :=
  ⟨by decide, (C3_negative_draw_fallback_and_skip [] 2 0 [] (by decide)
    (fun u hu => absurd hu (List.not_mem_nil u))).2.2.1⟩

/-- **C8**: a CBOW step whose reduced-window context is empty (as happens
with `window = 0`, whose reduced window is always empty) performs no
division — the `cbow_mean` division is guarded by `context size > 0`, so
`l1` is the zero vector — and `train_cbow_pair` then changes neither
`syn0` (no context rows to add `neu1e` into) nor `syn1` (every row update
adds `g * l1[j] = 0`). -/
theorem C8_cbow_empty_context (jexp : ℚ → ℚ) (lr : ℚ) (cumTable : List ℚ)
    (vocabSize hidden : Nat) (cm : Bool) (syn0 syn1 : List (List ℚ)) (wIdx : Nat)
    (us : List (ℚ × ℚ)) (hrows : ∀ v ∈ syn1, v.length = hidden) :
    (∀ pos sentenceLen : Nat, cbow_word2_indices 0 0 pos sentenceLen = []) ∧
    cbow_l1 cm hidden syn0 [] = List.replicate hidden 0 ∧
    train_cbow_pair jexp lr cumTable vocabSize hidden syn0 syn1 wIdx []
      (cbow_l1 cm hidden syn0 []) us = (syn0, syn1) := by
  have hempty : ∀ pos sentenceLen : Nat, cbow_word2_indices 0 0 pos sentenceLen = [] := by
    intro pos len
    unfold cbow_word2_indices
    rw [List.filter_eq_nil_iff]
    intro a ha
    obtain ⟨i, hi, rfl⟩ := List.mem_map.1 ha
    have hi' := List.mem_range.1 hi
    have hstart : ((pos : ℤ) - ((0 : ℕ) : ℤ) + ((0 : ℕ) : ℤ)).toNat = pos := by simp
    rw [hstart] at hi' ⊢
    have hle1 : min len (pos + 0 + 1 - 0) - pos ≤ 1 := by omega
    have hizero : i = 0 := by omega
    simp [hizero]
  have hl1 : cbow_l1 cm hidden syn0 [] = List.replicate hidden 0 := by
    unfold cbow_l1
    simp
  refine ⟨hempty, hl1, ?_⟩
  rw [hl1]
  unfold train_cbow_pair
  simp only [List.foldl_nil]
  exact Prod.ext rfl
    (negStep_fold_zero_l1_syn1 jexp lr cumTable vocabSize hidden wIdx _ _ syn1 hrows)

/-- Witness for C8 at a concrete state. -/
theorem C8_cbow_empty_context_witness :
    (∀ v ∈ [[(1 : ℚ)], [2]], v.length = 1) ∧
    train_cbow_pair (fun _ => 1) 1 [] 2 1 [[(5 : ℚ)], [6]] [[(1 : ℚ)], [2]] 1 []
      (cbow_l1 true 1 [[(5 : ℚ)], [6]] []) [(0, 0)] = ([[(5 : ℚ)], [6]], [[(1 : ℚ)], [2]]) :=
  ⟨by decide,
    (C8_cbow_empty_context (fun _ => 1) 1 [] 2 1 true [[(5 : ℚ)], [6]] [[(1 : ℚ)], [2]] 1
      [(0, 0)] (by decide)).2.2⟩

/-- **C1** (code evaluation at the failing input): in the CBOW branch the
context list `cbow_word2_indices` holds sentence positions, and the hidden
vector and the gradient write-back address `syn0` by those positions, not
by the context words' vocabulary indices.  Sentence `"b a"` (filtered, both
in vocabulary), center `pos = 1` (word "a", vocab index 1), `window = 1`,
`reduced_window = 0`; the context word "b" sits at position 0 but has vocab
index 2.  With `syn0 = [[10],[20],[30]]` the code's hidden vector is
`syn0[0] = [10]` — the sentinel's row, not `syn0[2] = [30]` — and after
`train_cbow_pair` (one true-pair iteration, `syn1[1] = [4]`, learning rate
2, `jexp ≡ 1` so the logistic factor is 1/2) row 0 is mutated to `[14]`
while the context word's own row 2 is untouched. -/
theorem C1_cbow_uses_sentence_positions :
    cbow_word2_indices 1 0 1 2 = [0] ∧
    cbow_l1 true 1 [[10], [20], [30]] (cbow_word2_indices 1 0 1 2) = [10] ∧
    cbow_l1 true 1 [[10], [20], [30]] (cbow_word2_indices 1 0 1 2)
      ≠ [[(10 : ℚ)], [20], [30]].getD 2 [] ∧
    (train_cbow_pair (fun _ => 1) 2 [] 3 1 [[10], [20], [30]] [[0], [4], [0]] 1
        (cbow_word2_indices 1 0 1 2)
        (cbow_l1 true 1 [[10], [20], [30]] (cbow_word2_indices 1 0 1 2)) []).1
      = [[14], [20], [30]] := by
  have hidx : cbow_word2_indices 1 0 1 2 = [0] := by decide
  have hl1 : cbow_l1 true 1 [[(10 : ℚ)], [20], [30]] [0] = [10] := by
    unfold cbow_l1
    norm_num [range_one_eq]
  rw [hidx, hl1]
  refine ⟨rfl, rfl, by norm_num, ?_⟩
  unfold train_cbow_pair negStep
  norm_num [dotJ, addScaled, range_one_eq]

/-- Witness for C5 at a concrete corpus and a concrete admissible `jpow`. -/
theorem C5_cum_table_invariants_witness :
    ((fun n : Nat => (n : ℚ)) 1 = 1) ∧
    (buildCumTable (fun n : Nat => (n : ℚ)) (build_vocab "a a\nb" 1).1
        (build_vocab "a a\nb" 1).2).getD
      ((buildCumTable (fun n : Nat => (n : ℚ)) (build_vocab "a a\nb" 1).1
        (build_vocab "a a\nb" 1).2).length - 1) 0 = cum_table_domain :=
  ⟨by norm_num,
    (C5_cum_table_invariants "a a\nb" 1 (fun n => (n : ℚ)) (by norm_num)
      (fun n => Nat.cast_nonneg n)).2.2.2⟩

/-! ### Lemmas about the query ranking -/

theorem getD_map_range {α : Type} (f : Nat → α) (n i : Nat) (d : α) (h : i < n) :
    ((List.range n).map f).getD i d = f i := by
  rw [List.getD_eq_getElem _ _ (by simp [h])]
  simp

theorem update_records_out_mem (index2word : List String) (items : List ScoredItem)
    (iterations : Nat) :
    ∀ (ranks : List Nat) (st : List (String × QueryOutRecord) × List QueryOutRecord),
      ∀ rec ∈ (ranks.foldl
        (fun (st : List (String × QueryOutRecord) × List QueryOutRecord) rank =>
          let item := items.getD rank ⟨0, 0, 0⟩
          let word := index2word.getD item.idx ""
          let record :=
            match alFind st.1 word with
            | some r => r
            | none => ⟨word, "NORMAL", 0, []⟩
          let record : QueryOutRecord := ⟨record.query, record.status, rank,
            updateHistory record.rank_history rank iterations⟩
          (alSet st.1 word record, st.2 ++ [record])) st).2,
        rec ∈ st.2 ∨ ∃ r ∈ ranks, rec.rank = r := by
  intro ranks
  induction ranks with
  | nil => intro st rec hrec; exact Or.inl hrec
  | cons r ranks ih =>
    intro st rec hrec
    rw [List.foldl_cons] at hrec
    rcases ih _ rec hrec with hin | ⟨r', hr', he⟩
    · rcases List.mem_append.1 hin with h | h
      · exact Or.inl h
      · simp only [List.mem_singleton] at h
        exact Or.inr ⟨r, List.mem_cons_self r ranks, by rw [h]⟩
    · exact Or.inr ⟨r', List.mem_cons_of_mem r hr', he⟩

/-- **C6**: in `compute_query_result` with a non-empty query (and at least
10 vocabulary entries, the range the source's unguarded `item_scores[rank]`
accesses for the default top-10 list stay inside): every query-term index
scores exactly 0; every candidate whose own vector has zero norm scores 0;
no emitted record's item index is a query-term index; the emitted record
list is sorted ascending by rank; and ranks are a dense 0-based position in
the descending-score ordering of `item_scores`. -/
theorem C6_query_ranking (s : ℚ → ℚ) (hidden vocabSize : Nat)
    (vocabIdx : String → Nat) (index2word : List String) (syn0 : List (List ℚ))
    (query_in queries_watched queries_ignored : List String) (iterations : Nat)
    (qo_lookup : List (String × QueryOutRecord))
    (hq : query_in ≠ []) (h10 : 10 ≤ vocabSize) :
    (∀ i ∈ q_idx_set vocabIdx query_in, i < vocabSize →
      (compute_scores s hidden vocabSize syn0 (q_idx_set vocabIdx query_in)
        (normalize_qi s hidden (compose_qi hidden vocabIdx syn0 query_in))).getD i 1 = 0) ∧
    (∀ i < vocabSize, i ∉ q_idx_set vocabIdx query_in →
      dotJ hidden (syn0.getD i []) (syn0.getD i []) = 0 →
      (compute_scores s hidden vocabSize syn0 (q_idx_set vocabIdx query_in)
        (normalize_qi s hidden (compose_qi hidden vocabIdx syn0 query_in))).getD i 1 = 0) ∧
    (∀ rec ∈ (compute_query_result s hidden vocabSize vocabIdx index2word syn0
        query_in queries_watched queries_ignored iterations qo_lookup).1,
      ((item_scores (compute_scores s hidden vocabSize syn0 (q_idx_set vocabIdx query_in)
        (normalize_qi s hidden (compose_qi hidden vocabIdx syn0 query_in)))).getD
          rec.rank ⟨0, 0, 0⟩).idx ∉ q_idx_set vocabIdx query_in) ∧
    List.Sorted (fun a b : QueryOutRecord => a.rank ≤ b.rank)
      (compute_query_result s hidden vocabSize vocabIdx index2word syn0
        query_in queries_watched queries_ignored iterations qo_lookup).1 ∧
    ((item_scores (compute_scores s hidden vocabSize syn0 (q_idx_set vocabIdx query_in)
        (normalize_qi s hidden (compose_qi hidden vocabIdx syn0 query_in)))).map
      (fun it => it.rank) = List.range vocabSize) ∧
    List.Pairwise (fun a b : ScoredItem => b.score ≤ a.score)
      (item_scores (compute_scores s hidden vocabSize syn0 (q_idx_set vocabIdx query_in)
        (normalize_qi s hidden (compose_qi hidden vocabIdx syn0 query_in)))) := by
  set qset := q_idx_set vocabIdx query_in with hqset
  set qi_vec := normalize_qi s hidden (compose_qi hidden vocabIdx syn0 query_in) with hqi
  set scores := compute_scores s hidden vocabSize syn0 qset qi_vec with hscores
  set items := item_scores scores with hitems
  have hscore_at : ∀ i, i < vocabSize → scores.getD i 1
      = if i ∈ qset then 0
        else
          if dotJ hidden (syn0.getD i []) (syn0.getD i []) = 0 then 0
          else dotJ hidden qi_vec (syn0.getD i [])
            / s (dotJ hidden (syn0.getD i []) (syn0.getD i [])) := by
    intro i hi
    rw [hscores]
    unfold compute_scores
    rw [getD_map_range _ _ _ _ hi]
  have hitems_len : scores.length = vocabSize := by
    rw [hscores]
    unfold compute_scores
    simp
  refine ⟨?_, ?_, ?_, ?_, ?_, ?_⟩
  · intro i hi hilt
    rw [hscore_at i hilt, if_pos hi]
  · intro i hilt hni hz
    rw [hscore_at i hilt, if_neg hni, if_pos hz]
  · intro rec hrec
    have hmem : rec ∈ (update_records index2word items iterations qo_lookup
        (ranksToShow index2word vocabIdx queries_watched queries_ignored qset items)).2 :=
      hrec
    unfold update_records at hmem
    simp only at hmem
    rw [List.mem_insertionSort] at hmem
    rcases update_records_out_mem index2word items iterations _ _ rec hmem with hin | ⟨r, hr, he⟩
    · cases hin
    · unfold ranksToShow at hr
      rw [List.mem_insertionSort] at hr
      have := List.of_mem_filter hr
      rw [he]
      simpa using this
  · unfold compute_query_result update_records
    simp only
    haveI : IsTotal QueryOutRecord (fun a b => a.rank ≤ b.rank) := ⟨fun a b => le_total _ _⟩
    haveI : IsTrans QueryOutRecord (fun a b => a.rank ≤ b.rank) :=
      ⟨fun _ _ _ h1 h2 => le_trans h1 h2⟩
    exact List.sorted_insertionSort _ _
  · rw [hitems]
    unfold item_scores
    rw [List.map_map]
    have : ((fun it : ScoredItem => it.rank) ∘ fun rp : Nat × (Nat × ℚ) =>
        (⟨rp.2.1, rp.2.2, rp.1⟩ : ScoredItem)) = Prod.fst := rfl
    rw [this, List.enum_map_fst]
    have hsl : (((List.range scores.length).map
        (fun i => (i, scores.getD i 0))).insertionSort (fun a b => b.2 ≤ a.2)).length
        = vocabSize := by
      rw [(List.perm_insertionSort _ _).length_eq]
      simp [hitems_len]
    rw [hsl]
  · rw [hitems]
    unfold item_scores
    haveI : IsTotal (Nat × ℚ) (fun a b => b.2 ≤ a.2) := ⟨fun a b => le_total _ _⟩
    haveI : IsTrans (Nat × ℚ) (fun a b => b.2 ≤ a.2) :=
      ⟨fun _ _ _ h1 h2 => le_trans h2 h1⟩
    have hsorted := List.sorted_insertionSort (fun a b : Nat × ℚ => b.2 ≤ a.2)
      ((List.range scores.length).map (fun i => (i, scores.getD i 0)))
    set sortedl := ((List.range scores.length).map
      (fun i => (i, scores.getD i 0))).insertionSort (fun a b => b.2 ≤ a.2) with hsl
    have h1 : List.Pairwise (fun a b : Nat × ℚ => b.2 ≤ a.2)
        (sortedl.enum.map Prod.snd) := by
      rw [List.enum_map_snd]
      exact hsorted
    have h2 := List.pairwise_map.1 h1
    exact List.pairwise_map.2 (h2.imp (fun h => h))

/-- Witness for C6 at a concrete 12-word state. -/
theorem C6_query_ranking_witness :
    (["a"] : List String) ≠ [] ∧
    List.Sorted (fun a b : QueryOutRecord => a.rank ≤ b.rank)
      (compute_query_result (fun q => q) 1 12 (fun _ => 1)
        ["\x00", "w1", "w2", "w3", "w4", "w5", "w6", "w7", "w8", "w9", "w10", "w11"]
        [[0], [1], [2], [3], [4], [5], [6], [7], [8], [9], [10], [11]]
        ["a"] [] [] 7 []).1 :=
  ⟨by decide,
    (C6_query_ranking (fun q => q) 1 12 (fun _ => 1)
      ["\x00", "w1", "w2", "w3", "w4", "w5", "w6", "w7", "w8", "w9", "w10", "w11"]
      [[0], [1], [2], [3], [4], [5], [6], [7], [8], [9], [10], [11]]
      ["a"] [] [] 7 [] (by decide) (by decide)).2.2.2.1⟩

/-- **C7**: `rank_history` maintenance.  Under the invariant that the
existing history has strictly increasing iteration numbers, all at most the
current `instance_count`: an update at the same `instance_count` as the
last entry collapses into it (same length, last entry overwritten in place
with the later rank); an update at a strictly larger `instance_count`
appends a new entry; and in both cases the strictly-increasing-iteration
invariant is preserved. -/
theorem C7_rank_history_coalescing (hist : List RankEntry) (rank iteration : Nat)
    (hchain : List.Chain' (fun a b : RankEntry => a.iteration < b.iteration) hist)
    (hlast : ∀ last ∈ hist.getLast?, last.iteration ≤ iteration) :
    List.Chain' (fun a b : RankEntry => a.iteration < b.iteration)
      (updateHistory hist rank iteration) ∧
    (∀ last ∈ hist.getLast?, last.iteration = iteration →
      (updateHistory hist rank iteration).length = hist.length ∧
      (updateHistory hist rank iteration).getLast? = some ⟨rank, iteration⟩) ∧
    ((∀ last ∈ hist.getLast?, last.iteration < iteration) →
      updateHistory hist rank iteration = hist ++ [⟨rank, iteration⟩]) := by
  by_cases hne : hist = []
  · subst hne
    refine ⟨?_, ?_, ?_⟩
    · simp [updateHistory]
    · intro last hlast'
      simp at hlast'
    · intro _
      simp [updateHistory]
  · have hgl : hist.getLast? = some (hist.getLast hne) := List.getLast?_eq_getLast hist hne
    have hsplit : hist.dropLast ++ [hist.getLast hne] = hist :=
      List.dropLast_append_getLast hne
    have hchain' := hchain
    rw [← hsplit, List.chain'_append] at hchain'
    obtain ⟨hcdrop, _, hcross⟩ := hchain'
    by_cases hiter : (hist.getLast hne).iteration = iteration
    · have hupd : updateHistory hist rank iteration
          = hist.dropLast ++ [⟨rank, (hist.getLast hne).iteration⟩] := by
        unfold updateHistory
        rw [hgl]
        simp [hiter]
      refine ⟨?_, ?_, ?_⟩
      · rw [hupd, List.chain'_append]
        refine ⟨hcdrop, List.chain'_singleton _, ?_⟩
        intro x hx y hy
        simp only [List.head?_cons, Option.mem_some_iff] at hy
        have := hcross x hx (hist.getLast hne) (by simp)
        rw [← hy]
        exact this
      · intro last hlast' _
        rw [hgl, Option.mem_some_iff] at hlast'
        constructor
        · rw [hupd, List.length_append, List.length_dropLast, List.length_singleton]
          have hlp : 1 ≤ hist.length := List.length_pos.2 hne
          omega
        · rw [hupd, hiter, List.getLast?_concat]
      · intro hstrict
        exfalso
        have := hstrict (hist.getLast hne) (by rw [hgl]; rfl)
        omega
    · have hupd : updateHistory hist rank iteration = hist ++ [⟨rank, iteration⟩] := by
        unfold updateHistory
        rw [hgl]
        simp [hiter]
      refine ⟨?_, ?_, ?_⟩
      · rw [hupd, List.chain'_append]
        refine ⟨hchain, List.chain'_singleton _, ?_⟩
        intro x hx y hy
        simp only [List.head?_cons, Option.mem_some_iff] at hy
        rw [hgl, Option.mem_some_iff] at hx
        have hle := hlast (hist.getLast hne) (by rw [hgl]; rfl)
        rw [← hy, ← hx]
        simp only
        omega
      · intro last hlast' hit
        rw [hgl, Option.mem_some_iff] at hlast'
        exact absurd (hlast' ▸ hit) hiter
      · intro _
        exact hupd

/-- Witness for C7: a same-iteration update collapses, a later one appends. -/
theorem C7_rank_history_coalescing_witness :
    (List.Chain' (fun a b : RankEntry => a.iteration < b.iteration) [⟨2, 5⟩] ∧
      ∀ last ∈ ([⟨2, 5⟩] : List RankEntry).getLast?, last.iteration ≤ 5) ∧
    (updateHistory [⟨2, 5⟩] 3 5).length = 1 ∧
    (updateHistory [⟨2, 5⟩] 3 5).getLast? = some ⟨3, 5⟩ :=
  ⟨⟨List.chain'_singleton _, by decide⟩,
    (C7_rank_history_coalescing [⟨2, 5⟩] 3 5 (List.chain'_singleton _) (by decide)).2.1
      ⟨2, 5⟩ (by decide) rfl⟩

/-! ### Lemmas about the float model of the normalization -/

theorem JF.add_nan_left (x : JF) : JF.add JF.nan x = JF.nan := by
  cases x <;> rfl

theorem JF.add_fin_nan : JF.add (JF.fin 0) JF.nan = JF.nan := rfl

theorem foldl_JF_add_nan (l : List JF) : l.foldl JF.add JF.nan = JF.nan := by
  induction l with
  | nil => rfl
  | cons a l ih => rw [List.foldl_cons, JF.add_nan_left, ih]

theorem foldl_JF_add_fin0_replicate (n : Nat) :
    (List.replicate n (JF.fin 0)).foldl JF.add (JF.fin 0) = JF.fin 0 := by
  induction n with
  | zero => rfl
  | succ n ih =>
    rw [List.replicate_succ, List.foldl_cons]
    have h : JF.add (JF.fin 0) (JF.fin 0) = JF.fin 0 := by simp [JF.add]
    rw [h, ih]

theorem foldl_JF_add_replicate_nan (n : Nat) (h : 1 ≤ n) :
    (List.replicate n JF.nan).foldl JF.add (JF.fin 0) = JF.nan := by
  cases n with
  | zero => omega
  | succ m =>
    rw [List.replicate_succ, List.foldl_cons, JF.add_fin_nan]
    exact foldl_JF_add_nan _

theorem sum_nonneg_eq_zero (l : List ℚ) (hnn : ∀ x ∈ l, 0 ≤ x) (h : l.sum = 0) :
    ∀ x ∈ l, x = 0 := by
  induction l with
  | nil => simp
  | cons a l ih =>
    simp only [List.sum_cons] at h
    have ha := hnn a (List.mem_cons_self a l)
    have hrest : 0 ≤ l.sum :=
      List.sum_nonneg (fun x hx => hnn x (List.mem_cons_of_mem _ hx))
    have ha0 : a = 0 := by linarith
    have hl0 : l.sum = 0 := by linarith
    intro x hx
    rcases List.mem_cons.1 hx with rfl | hx
    · exact ha0
    · exact ih (fun x hx => hnn x (List.mem_cons_of_mem _ hx)) hl0 x hx

theorem dotJ_self_zero (hidden : Nat) (qi : List ℚ) (h : dotJ hidden qi qi = 0) :
    ∀ j < hidden, qi.getD j 0 = 0 := by
  intro j hj
  have hmem : qi.getD j 0 * qi.getD j 0
      ∈ (List.range hidden).map (fun j => qi.getD j 0 * qi.getD j 0) :=
    List.mem_map.2 ⟨j, List.mem_range.2 hj, rfl⟩
  have := sum_nonneg_eq_zero _ (fun x hx => by
    obtain ⟨k, _, rfl⟩ := List.mem_map.1 hx
    exact mul_self_nonneg _) h _ hmem
  exact mul_self_eq_zero.1 this

theorem getD_map_fin (qi : List ℚ) (j : Nat) :
    (qi.map JF.fin).getD j (JF.fin 0) = JF.fin (qi.getD j 0) := by
  by_cases h : j < qi.length
  · rw [List.getD_eq_getElem _ _ (by simpa using h), List.getD_eq_getElem _ _ h]
    simp
  · rw [List.getD_eq_default _ _ (by simpa using Nat.le_of_not_lt h),
      List.getD_eq_default _ _ (Nat.le_of_not_lt h)]

/-- **C2, counterexample**: the non-empty query `["a", "-a"]` composes to
the zero vector; the unguarded normalization (JS semantics) divides `0/0`
and turns every component into `NaN`, not 0; and the cosine score of the
candidate at index 2 (own vector `[3]`, nonzero norm) is `NaN`, not the
claimed defined value 0. -/
theorem C2_counterexample :
    compose_qi 1 (fun w => if w = "a" then 1 else 0) [[0], [5], [3]] ["a", "-a"] = [0] ∧
    normalizeJS (fun q => q) 1 [JF.fin 0] = [JF.nan] ∧
    ([JF.nan] : List JF) ≠ [JF.fin 0] ∧
    (compute_scoresJS (fun q => q) 1 3 [[0], [5], [3]]
      (q_idx_set (fun w => if w = "a" then 1 else 0) ["a", "-a"]) [JF.nan]).getD 2 (JF.fin 0)
      = JF.nan ∧
    JF.nan ≠ JF.fin 0 := by
  have hq : q_idx_set (fun w => if w = "a" then 1 else 0) ["a", "-a"] = [1, 1] := by decide
  refine ⟨?_, ?_, by decide, ?_, by decide⟩
  · have h1 : startsWithDash "a" = false := by decide
    have h2 : startsWithDash "-a" = true := by decide
    have h3 : dropSign "-a" = "a" := by decide
    unfold compose_qi
    norm_num [h1, h2, h3, range_one_eq]
  · unfold normalizeJS
    norm_num [range_one_eq, JF.mul, JF.add, JF.sqrt, JF.div]
  · rw [hq]
    unfold compute_scoresJS
    norm_num [range_one_eq, dotJ, JF.mul, JF.add, JF.div]

/-- **C2** (as amended): for every non-empty query whose composed raw
query vector has L2 norm zero, the unguarded normalization of lines
402-408 divides every component `0/0` under JS float semantics, yielding a
query vector of all `NaN` (not all zeros), and every subsequent cosine
score is `NaN` — not the defined value 0 — except the query's own indices
and zero-norm candidates, which are still forced to 0. -/
theorem C2_zero_norm_nan (s : ℚ → ℚ) (hidden vocabSize : Nat)
    (syn0 : List (List ℚ)) (qIdxSet : List Nat) (qi : List ℚ)
    (hs0 : s 0 = 0) (hnorm : dotJ hidden qi qi = 0) :
    normalizeJS s hidden (qi.map JF.fin) = List.replicate hidden JF.nan ∧
    (∀ i < vocabSize,
      (compute_scoresJS s hidden vocabSize syn0 qIdxSet
        (normalizeJS s hidden (qi.map JF.fin))).getD i (JF.fin 0)
        = if i ∈ qIdxSet then JF.fin 0
          else if dotJ hidden (syn0.getD i []) (syn0.getD i []) = 0 then JF.fin 0
          else JF.nan) := by
  have hcomp := dotJ_self_zero hidden qi hnorm
  have hl2list : (List.range hidden).map
      (fun j => ((qi.map JF.fin).getD j (JF.fin 0)).mul ((qi.map JF.fin).getD j (JF.fin 0)))
      = List.replicate hidden (JF.fin 0) := by
    rw [show List.replicate hidden (JF.fin 0)
        = (List.range hidden).map (fun _ => JF.fin 0) by
      rw [List.map_const', List.length_range]]
    apply List.map_congr_left
    intro j hj
    rw [getD_map_fin, hcomp j (List.mem_range.1 hj)]
    simp [JF.mul]
  have hnormed : normalizeJS s hidden (qi.map JF.fin) = List.replicate hidden JF.nan := by
    unfold normalizeJS
    rw [hl2list, foldl_JF_add_fin0_replicate]
    rw [show List.replicate hidden JF.nan = (List.range hidden).map (fun _ => JF.nan) by
      rw [List.map_const', List.length_range]]
    apply List.map_congr_left
    intro j hj
    rw [getD_map_fin, hcomp j (List.mem_range.1 hj)]
    simp [JF.sqrt, hs0, JF.div]
  refine ⟨hnormed, ?_⟩
  intro i hi
  unfold compute_scoresJS
  rw [getD_map_range _ _ _ _ hi]
  by_cases hq : i ∈ qIdxSet
  · simp [hq]
  · by_cases hz : dotJ hidden (syn0.getD i []) (syn0.getD i []) = 0
    · have hz2 : dotJ hidden (syn0[i]?.getD []) (syn0[i]?.getD []) = 0 := by
        simpa using hz
      simp [hq, hz2]
    · have hhid : 1 ≤ hidden := by
        by_contra hcon
        have h0 : hidden = 0 := by omega
        apply hz
        rw [h0]
        rfl
      have hprodlist : (List.range hidden).map
          (fun j => ((normalizeJS s hidden (qi.map JF.fin)).getD j (JF.fin 0)).mul
            (JF.fin ((syn0.getD i []).getD j 0)))
          = List.replicate hidden JF.nan := by
        rw [show List.replicate hidden JF.nan = (List.range hidden).map (fun _ => JF.nan) by
          rw [List.map_const', List.length_range]]
        apply List.map_congr_left
        intro j hj
        have hjh : j < hidden := List.mem_range.1 hj
        rw [hnormed, List.getD_eq_getElem _ _ (by simpa using hjh), List.getElem_replicate]
        rfl
      simp only [if_neg hq, if_neg hz]
      rw [hprodlist, foldl_JF_add_replicate_nan hidden hhid]
      rfl

/-- Witness for C2 (amended) at a concrete zero-norm query vector. -/
theorem C2_zero_norm_nan_witness :
    ((fun q : ℚ => q) 0 = 0 ∧ dotJ 1 [0] [0] = 0) ∧
    normalizeJS (fun q : ℚ => q) 1 ([(0 : ℚ)].map JF.fin) = List.replicate 1 JF.nan :=
  ⟨⟨rfl, by norm_num [dotJ, range_one_eq]⟩,
    (C2_zero_norm_nan (fun q => q) 1 1 [[0]] [] [0] rfl
      (by norm_num [dotJ, range_one_eq])).1⟩

end Lamvi
